import Mathlib

/-!
Verification development for the G-code combiner core
(`src/utils/fileProcessor.ts` together with the queue callbacks of the
surrounding application).  JavaScript strings are modelled as `List Char`
(UTF-16 code units; all the texts involved are ASCII, where code units and
code points agree), JavaScript numbers appearing as whole-second counts,
line counts and indices as `Nat`, and the clamp input of the copies field
as `Int`.  A ZIP archive is modelled by the result of `JSZip.loadAsync`:
`none` when the bytes cannot be parsed as a ZIP, otherwise the list of the
archive members in directory order.
-/

set_option maxRecDepth 10000

namespace GcodeCombiner

/-- ASCII part of the character class the JavaScript `\s` regex atom and
`String.prototype.trim` recognise. -/
def isSpaceChar (c : Char) : Bool :=
  c = ' ' || c = '\t' || c = '\n' || c = '\r' || c = '\x0b' || c = '\x0c'

/-- Decimal digit character, as produced by JavaScript number-to-string
conversion for a value below ten. -/
def digitChar : Nat → Char
  | 0 => '0' | 1 => '1' | 2 => '2' | 3 => '3' | 4 => '4'
  | 5 => '5' | 6 => '6' | 7 => '7' | 8 => '8' | _ => '9'

/-- Fuel-driven helper for `natDigits` (the fuel `n + 1` always suffices
because `n / 10 < n` for `10 ≤ n`). -/
def natDigitsAux : Nat → Nat → List Char
  | 0, _ => []
  | fuel + 1, n =>
    if n < 10 then [digitChar n]
    else natDigitsAux fuel (n / 10) ++ [digitChar (n % 10)]

/-- Decimal representation of a natural number, as produced by the
JavaScript template interpolation of a non-negative integer. -/
def natDigits (n : Nat) : List Char := natDigitsAux (n + 1) n

/-- Value of a string of decimal digits, as computed by
`Number.parseInt(s, 10)` on a string that is entirely digits. -/
def parseDigits (l : List Char) : Nat :=
  l.foldl (fun acc c => acc * 10 + (c.toNat - 48)) 0

/-- Embedding of `String.prototype.trim`. -/
def trimStr (t : List Char) : List Char :=
  ((t.dropWhile isSpaceChar).reverse.dropWhile isSpaceChar).reverse

/-- Embedding of `timeStr.match(/(\d+)\s*u/i)` followed by
`Number.parseInt` of the capture, for a unit letter `u` (`h`, `m` or `s`):
the scan looks for the leftmost position carrying a digit run that, after
optional whitespace, is followed by the unit letter (case-insensitively),
and returns the value of that digit run. -/
def findNumUnit (u : Char) : List Char → Option Nat
  | [] => none
  | c :: cs =>
    if c.isDigit = true then
      let run := (c :: cs).takeWhile (fun x => x.isDigit)
      let rest := ((c :: cs).dropWhile (fun x => x.isDigit)).dropWhile isSpaceChar
      match rest with
      | d :: _ => if d.toLower = u then some (parseDigits run) else findNumUnit u cs
      | [] => findNumUnit u cs
    else findNumUnit u cs

/-- Embedding of `parseTimeToSeconds` from `fileProcessor.ts`: a string of
pure digits (after trimming) is read as a second count, otherwise the
hour, minute and second components are matched independently anywhere in
the string and summed. -/
def parseTimeToSeconds (timeStr : List Char) : Nat :=
  let tr := trimStr timeStr
  if tr ≠ [] ∧ tr.all (fun c => c.isDigit) = true then parseDigits tr
  else
    (findNumUnit 'h' timeStr).getD 0 * 3600 + (findNumUnit 'm' timeStr).getD 0 * 60 +
      (findNumUnit 's' timeStr).getD 0

/-- Embedding of `parts.join(' ')` on the array built by `formatSeconds`. -/
def joinSpace : List (List Char) → List Char
  | [] => []
  | [p] => p
  | p :: ps => p ++ ' ' :: joinSpace ps

/-- Embedding of `formatSeconds` from `fileProcessor.ts`: space-joined
non-zero components among hours, minutes and seconds, with the seconds
component always present when the other two are absent. -/
def formatSeconds (totalSeconds : Nat) : List Char :=
  let hours := totalSeconds / 3600
  let minutes := totalSeconds % 3600 / 60
  let seconds := totalSeconds % 60
  let parts :=
    (if hours > 0 then [natDigits hours ++ ['h']] else []) ++
      (if minutes > 0 then [natDigits minutes ++ ['m']] else [])
  let parts2 :=
    if seconds > 0 ∨ parts = [] then parts ++ [natDigits seconds ++ ['s']] else parts
  joinSpace parts2

/-! Auxiliary facts about digits, digit strings and whitespace. -/

theorem digit_not_space (c : Char) (h : c.isDigit = true) : isSpaceChar c = false := by
  by_contra h2
  have h3 : isSpaceChar c = true := by
    cases h4 : isSpaceChar c
    · exact absurd h4 h2
    · rfl
  simp only [isSpaceChar, Bool.or_eq_true, decide_eq_true_eq] at h3
  rcases h3 with (((((h5 | h5) | h5) | h5) | h5) | h5) <;> subst h5 <;> simp at h

theorem takeWhile_append_all {α : Type} (p : α → Bool) :
    ∀ (D rest : List α), (∀ c ∈ D, p c = true) →
      (∀ c, rest.head? = some c → p c = false) → (D ++ rest).takeWhile p = D := by
  intro D
  induction D with
  | nil =>
    intro rest _ hrest
    cases rest with
    | nil => rfl
    | cons r rs => simp [List.takeWhile_cons, hrest r rfl]
  | cons d ds ih =>
    intro rest hall hrest
    have hd : p d = true := hall d (List.mem_cons_self d ds)
    simp only [List.cons_append, List.takeWhile_cons, hd, if_true]
    rw [ih rest (fun c hc => hall c (List.mem_cons_of_mem d hc)) hrest]

theorem dropWhile_append_all {α : Type} (p : α → Bool) :
    ∀ (D rest : List α), (∀ c ∈ D, p c = true) →
      (∀ c, rest.head? = some c → p c = false) → (D ++ rest).dropWhile p = rest := by
  intro D
  induction D with
  | nil =>
    intro rest _ hrest
    cases rest with
    | nil => rfl
    | cons r rs => simp [List.dropWhile_cons, hrest r rfl]
  | cons d ds ih =>
    intro rest hall hrest
    have hd : p d = true := hall d (List.mem_cons_self d ds)
    simp only [List.cons_append, List.dropWhile_cons, hd, if_true]
    exact ih rest (fun c hc => hall c (List.mem_cons_of_mem d hc)) hrest

theorem dropWhile_head_false {α : Type} (p : α → Bool) (l : List α)
    (h : ∀ c, l.head? = some c → p c = false) : l.dropWhile p = l := by
  cases l with
  | nil => rfl
  | cons a t => simp [List.dropWhile_cons, h a rfl]

theorem trimStr_eq_self (l : List Char)
    (h1 : ∀ c, l.head? = some c → isSpaceChar c = false)
    (h2 : ∀ c, l.getLast? = some c → isSpaceChar c = false) : trimStr l = l := by
  unfold trimStr
  rw [dropWhile_head_false _ _ h1]
  rw [dropWhile_head_false _ _ (by simpa using h2)]
  exact l.reverse_reverse

theorem natDigitsAux_irrel :
    ∀ (f1 f2 n : Nat), n < f1 → n < f2 → natDigitsAux f1 n = natDigitsAux f2 n := by
  intro f1
  induction f1 with
  | zero => intro f2 n h; omega
  | succ f1 ih =>
    intro f2 n h1 h2
    cases f2 with
    | zero => omega
    | succ f2 =>
      simp only [natDigitsAux]
      by_cases h10 : n < 10
      · simp [h10]
      · have hdiv : n / 10 < n := Nat.div_lt_self (by omega) (by omega)
        simp only [h10, if_false]
        rw [ih f2 (n / 10) (by omega) (by omega)]

theorem natDigits_small (n : Nat) (h : n < 10) : natDigits n = [digitChar n] := by
  simp [natDigits, natDigitsAux, h]

theorem natDigits_step (n : Nat) (h : 10 ≤ n) :
    natDigits n = natDigits (n / 10) ++ [digitChar (n % 10)] := by
  have hdiv : n / 10 < n := Nat.div_lt_self (by omega) (by omega)
  show natDigitsAux (n + 1) n = _
  rw [natDigitsAux, if_neg (by omega)]
  rw [natDigitsAux_irrel n (n / 10 + 1) (n / 10) (by omega) (by omega)]
  rfl

theorem natDigits_ne_nil (n : Nat) : natDigits n ≠ [] := by
  by_cases h : n < 10
  · rw [natDigits_small n h]; simp
  · rw [natDigits_step n (by omega)]; simp

theorem digitChar_isDigit : ∀ d, d < 10 → (digitChar d).isDigit = true := by decide

theorem digitChar_toNat : ∀ d, d < 10 → (digitChar d).toNat - 48 = d := by decide

theorem natDigits_all_digit (n : Nat) : ∀ c ∈ natDigits n, c.isDigit = true := by
  induction n using Nat.strong_induction_on with
  | _ n ih =>
    by_cases h : n < 10
    · rw [natDigits_small n h]
      intro c hc
      rw [List.mem_singleton.mp hc]
      exact digitChar_isDigit n h
    · rw [natDigits_step n (by omega)]
      intro c hc
      rcases List.mem_append.mp hc with h1 | h2
      · exact ih (n / 10) (Nat.div_lt_self (by omega) (by omega)) c h1
      · rw [List.mem_singleton.mp h2]
        exact digitChar_isDigit (n % 10) (Nat.mod_lt n (by omega))

theorem parseDigits_append_digit (l : List Char) (c : Char) :
    parseDigits (l ++ [c]) = parseDigits l * 10 + (c.toNat - 48) := by
  simp [parseDigits, List.foldl_append]

theorem parseDigits_natDigits (n : Nat) : parseDigits (natDigits n) = n := by
  induction n using Nat.strong_induction_on with
  | _ n ih =>
    by_cases h : n < 10
    · rw [natDigits_small n h]
      have : parseDigits [digitChar n] = 0 * 10 + ((digitChar n).toNat - 48) := rfl
      rw [this, digitChar_toNat n h]
      omega
    · rw [natDigits_step n (by omega), parseDigits_append_digit,
        ih (n / 10) (Nat.div_lt_self (by omega) (by omega)),
        digitChar_toNat (n % 10) (Nat.mod_lt n (by omega))]
      omega

/-! Behaviour of the `(\d+)\s*u` scan on strings built from digit runs. -/

theorem findNumUnit_cons_nondigit (u c : Char) (cs : List Char) (h : c.isDigit = false) :
    findNumUnit u (c :: cs) = findNumUnit u cs := by
  simp [findNumUnit, h]

theorem findNumUnit_hit (u uc : Char) (D rest : List Char) (hD : D ≠ [])
    (hall : ∀ c ∈ D, c.isDigit = true) (h1 : uc.isDigit = false)
    (h2 : isSpaceChar uc = false) (h3 : uc.toLower = u) :
    findNumUnit u (D ++ uc :: rest) = some (parseDigits D) := by
  cases D with
  | nil => exact absurd rfl hD
  | cons d ds =>
    have hd : d.isDigit = true := hall d (List.mem_cons_self d ds)
    have hhead : ∀ c, (uc :: rest).head? = some c → (fun x => x.isDigit) c = false := by
      intro c hc
      simp only [List.head?_cons, Option.some.injEq] at hc
      rw [← hc]
      exact h1
    have htake : ((d :: ds) ++ uc :: rest).takeWhile (fun x => x.isDigit) = d :: ds :=
      takeWhile_append_all _ _ _ (by intro c hc; exact hall c hc) hhead
    have hdrop : ((d :: ds) ++ uc :: rest).dropWhile (fun x => x.isDigit) = uc :: rest :=
      dropWhile_append_all _ _ _ (by intro c hc; exact hall c hc) hhead
    rw [List.cons_append] at htake hdrop
    show findNumUnit u (d :: (ds ++ uc :: rest)) = _
    rw [findNumUnit, if_pos hd]
    simp only [htake, hdrop, List.dropWhile_cons, h2, if_false]
    simp [h3]

theorem findNumUnit_skip (u : Char) (D rest : List Char)
    (hall : ∀ c ∈ D, c.isDigit = true)
    (hrest : ∀ c, rest.head? = some c → c.isDigit = false)
    (hfail : ∀ d, (rest.dropWhile isSpaceChar).head? = some d → ¬(d.toLower = u)) :
    findNumUnit u (D ++ rest) = findNumUnit u rest := by
  induction D with
  | nil => rfl
  | cons d ds ih =>
    have hd : d.isDigit = true := hall d (List.mem_cons_self d ds)
    have hhead : ∀ c, rest.head? = some c → (fun x => x.isDigit) c = false := by
      intro c hc; exact hrest c hc
    have htake : ((d :: ds) ++ rest).takeWhile (fun x => x.isDigit) = d :: ds :=
      takeWhile_append_all _ _ _ (by intro c hc; exact hall c hc) hhead
    have hdrop : ((d :: ds) ++ rest).dropWhile (fun x => x.isDigit) = rest :=
      dropWhile_append_all _ _ _ (by intro c hc; exact hall c hc) hhead
    rw [List.cons_append] at htake hdrop
    have ihx := ih (fun c hc => hall c (List.mem_cons_of_mem d hc))
    show findNumUnit u (d :: (ds ++ rest)) = _
    rw [findNumUnit, if_pos hd]
    simp only [htake, hdrop]
    cases hr : rest.dropWhile isSpaceChar with
    | nil => simpa using ihx
    | cons x xs =>
      have hx : ¬(x.toLower = u) := hfail x (by rw [hr]; rfl)
      simp only [hx, if_false]
      simpa using ihx

theorem fnu_hit_nat (u uc : Char) (n : Nat) (rest : List Char)
    (h1 : uc.isDigit = false) (h2 : isSpaceChar uc = false) (h3 : uc.toLower = u) :
    findNumUnit u (natDigits n ++ uc :: rest) = some n := by
  rw [findNumUnit_hit u uc _ rest (natDigits_ne_nil n) (natDigits_all_digit n) h1 h2 h3,
    parseDigits_natDigits]

theorem fnu_skip_nat (u : Char) (n : Nat) (rest : List Char)
    (hrest : ∀ c, rest.head? = some c → c.isDigit = false)
    (hfail : ∀ d, (rest.dropWhile isSpaceChar).head? = some d → ¬(d.toLower = u)) :
    findNumUnit u (natDigits n ++ rest) = findNumUnit u rest :=
  findNumUnit_skip u (natDigits n) rest (natDigits_all_digit n) hrest hfail

theorem head_not_space_of_digits (A X : List Char) (hA : A ≠ [])
    (hall : ∀ c ∈ A, c.isDigit = true) :
    ∀ c, (A ++ X).head? = some c → isSpaceChar c = false := by
  intro c hc
  cases A with
  | nil => exact absurd rfl hA
  | cons a as =>
    simp only [List.cons_append, List.head?_cons, Option.some.injEq] at hc
    rw [← hc]
    exact digit_not_space a (hall a (List.mem_cons_self a as))

theorem c3_case_hms (s : Nat) (hh : 0 < s / 3600) (hm : 0 < s % 3600 / 60)
    (hs : 0 < s % 60) : parseTimeToSeconds (formatSeconds s) = s := by
  have hfmt : formatSeconds s =
      natDigits (s / 3600) ++ 'h' :: ' ' ::
        (natDigits (s % 3600 / 60) ++ 'm' :: ' ' :: (natDigits (s % 60) ++ ['s'])) := by
    simp [formatSeconds, joinSpace, hh, hm, hs, List.append_assoc]
  have eh : findNumUnit 'h' (formatSeconds s) = some (s / 3600) := by
    rw [hfmt]
    exact fnu_hit_nat 'h' 'h' _ _ (by decide) (by decide) (by decide)
  have em : findNumUnit 'm' (formatSeconds s) = some (s % 3600 / 60) := by
    rw [hfmt]
    rw [fnu_skip_nat 'm' (s / 3600) _
      (by intro c hc; simp only [List.head?_cons, Option.some.injEq] at hc; rw [← hc]; decide)
      (by
        intro d hd
        rw [List.dropWhile_cons, if_neg (by decide)] at hd
        simp only [List.head?_cons, Option.some.injEq] at hd
        rw [← hd]; decide)]
    rw [findNumUnit_cons_nondigit 'm' 'h' _ (by decide),
      findNumUnit_cons_nondigit 'm' ' ' _ (by decide)]
    exact fnu_hit_nat 'm' 'm' _ _ (by decide) (by decide) (by decide)
  have es : findNumUnit 's' (formatSeconds s) = some (s % 60) := by
    rw [hfmt]
    rw [fnu_skip_nat 's' (s / 3600) _
      (by intro c hc; simp only [List.head?_cons, Option.some.injEq] at hc; rw [← hc]; decide)
      (by
        intro d hd
        rw [List.dropWhile_cons, if_neg (by decide)] at hd
        simp only [List.head?_cons, Option.some.injEq] at hd
        rw [← hd]; decide)]
    rw [findNumUnit_cons_nondigit 's' 'h' _ (by decide),
      findNumUnit_cons_nondigit 's' ' ' _ (by decide)]
    rw [fnu_skip_nat 's' (s % 3600 / 60) _
      (by intro c hc; simp only [List.head?_cons, Option.some.injEq] at hc; rw [← hc]; decide)
      (by
        intro d hd
        rw [List.dropWhile_cons, if_neg (by decide)] at hd
        simp only [List.head?_cons, Option.some.injEq] at hd
        rw [← hd]; decide)]
    rw [findNumUnit_cons_nondigit 's' 'm' _ (by decide),
      findNumUnit_cons_nondigit 's' ' ' _ (by decide)]
    exact fnu_hit_nat 's' 's' _ [] (by decide) (by decide) (by decide)
  have hlast : ∀ c, (natDigits (s / 3600) ++ 'h' :: ' ' ::
      (natDigits (s % 3600 / 60) ++ 'm' :: ' ' :: (natDigits (s % 60) ++ ['s']))).getLast? =
        some c → isSpaceChar c = false := by
    intro c hc
    rw [show (natDigits (s / 3600) ++ 'h' :: ' ' ::
        (natDigits (s % 3600 / 60) ++ 'm' :: ' ' :: (natDigits (s % 60) ++ ['s'])))
      = (natDigits (s / 3600) ++ 'h' :: ' ' ::
        (natDigits (s % 3600 / 60) ++ 'm' :: ' ' :: natDigits (s % 60))) ++ ['s'] from by
          simp] at hc
    rw [List.getLast?_concat] at hc
    simp only [Option.some.injEq] at hc
    rw [← hc]; decide
  have htrim : trimStr (formatSeconds s) = formatSeconds s := by
    rw [hfmt]
    exact trimStr_eq_self _
      (head_not_space_of_digits _ _ (natDigits_ne_nil _) (natDigits_all_digit _)) hlast
  have hcond : ¬(trimStr (formatSeconds s) ≠ [] ∧
      (trimStr (formatSeconds s)).all (fun c => c.isDigit) = true) := by
    rw [htrim, hfmt]
    rintro ⟨-, hall⟩
    have hmem : 'h' ∈ natDigits (s / 3600) ++ 'h' :: ' ' ::
        (natDigits (s % 3600 / 60) ++ 'm' :: ' ' :: (natDigits (s % 60) ++ ['s'])) := by simp
    have := List.all_eq_true.mp hall 'h' hmem
    simp at this
  simp only [parseTimeToSeconds]
  rw [if_neg hcond, eh, em, es]
  simp only [Option.getD_some]
  omega

theorem c3_case_hm0 (s : Nat) (hh : 0 < s / 3600) (hm : 0 < s % 3600 / 60)
    (hs0 : s % 60 = 0) : parseTimeToSeconds (formatSeconds s) = s := by
  have hfmt : formatSeconds s =
      natDigits (s / 3600) ++ 'h' :: ' ' :: (natDigits (s % 3600 / 60) ++ ['m']) := by
    simp [formatSeconds, joinSpace, hh, hm, hs0, List.append_assoc]
  have eh : findNumUnit 'h' (formatSeconds s) = some (s / 3600) := by
    rw [hfmt]
    exact fnu_hit_nat 'h' 'h' _ _ (by decide) (by decide) (by decide)
  have em : findNumUnit 'm' (formatSeconds s) = some (s % 3600 / 60) := by
    rw [hfmt]
    rw [fnu_skip_nat 'm' (s / 3600) _
      (by intro c hc; simp only [List.head?_cons, Option.some.injEq] at hc; rw [← hc]; decide)
      (by
        intro d hd
        rw [List.dropWhile_cons, if_neg (by decide)] at hd
        simp only [List.head?_cons, Option.some.injEq] at hd
        rw [← hd]; decide)]
    rw [findNumUnit_cons_nondigit 'm' 'h' _ (by decide),
      findNumUnit_cons_nondigit 'm' ' ' _ (by decide)]
    exact fnu_hit_nat 'm' 'm' _ [] (by decide) (by decide) (by decide)
  have es : findNumUnit 's' (formatSeconds s) = none := by
    rw [hfmt]
    rw [fnu_skip_nat 's' (s / 3600) _
      (by intro c hc; simp only [List.head?_cons, Option.some.injEq] at hc; rw [← hc]; decide)
      (by
        intro d hd
        rw [List.dropWhile_cons, if_neg (by decide)] at hd
        simp only [List.head?_cons, Option.some.injEq] at hd
        rw [← hd]; decide)]
    rw [findNumUnit_cons_nondigit 's' 'h' _ (by decide),
      findNumUnit_cons_nondigit 's' ' ' _ (by decide)]
    rw [fnu_skip_nat 's' (s % 3600 / 60) _
      (by intro c hc; simp only [List.head?_cons, Option.some.injEq] at hc; rw [← hc]; decide)
      (by
        intro d hd
        rw [List.dropWhile_cons, if_neg (by decide)] at hd
        simp only [List.head?_cons, Option.some.injEq] at hd
        rw [← hd]; decide)]
    rw [findNumUnit_cons_nondigit 's' 'm' _ (by decide)]
    rfl
  have hlast : ∀ c, (natDigits (s / 3600) ++ 'h' :: ' ' ::
      (natDigits (s % 3600 / 60) ++ ['m'])).getLast? = some c → isSpaceChar c = false := by
    intro c hc
    rw [show (natDigits (s / 3600) ++ 'h' :: ' ' :: (natDigits (s % 3600 / 60) ++ ['m']))
      = (natDigits (s / 3600) ++ 'h' :: ' ' :: natDigits (s % 3600 / 60)) ++ ['m'] from by
        simp] at hc
    rw [List.getLast?_concat] at hc
    simp only [Option.some.injEq] at hc
    rw [← hc]; decide
  have htrim : trimStr (formatSeconds s) = formatSeconds s := by
    rw [hfmt]
    exact trimStr_eq_self _
      (head_not_space_of_digits _ _ (natDigits_ne_nil _) (natDigits_all_digit _)) hlast
  have hcond : ¬(trimStr (formatSeconds s) ≠ [] ∧
      (trimStr (formatSeconds s)).all (fun c => c.isDigit) = true) := by
    rw [htrim, hfmt]
    rintro ⟨-, hall⟩
    have hmem : 'h' ∈ natDigits (s / 3600) ++ 'h' :: ' ' ::
        (natDigits (s % 3600 / 60) ++ ['m']) := by simp
    have := List.all_eq_true.mp hall 'h' hmem
    simp at this
  simp only [parseTimeToSeconds]
  rw [if_neg hcond, eh, em, es]
  simp only [Option.getD_some, Option.getD_none]
  omega

theorem c3_case_h0s (s : Nat) (hh : 0 < s / 3600) (hm0 : s % 3600 / 60 = 0)
    (hs : 0 < s % 60) : parseTimeToSeconds (formatSeconds s) = s := by
  have hfmt : formatSeconds s =
      natDigits (s / 3600) ++ 'h' :: ' ' :: (natDigits (s % 60) ++ ['s']) := by
    simp [formatSeconds, joinSpace, hh, hm0, hs, List.append_assoc]
  have eh : findNumUnit 'h' (formatSeconds s) = some (s / 3600) := by
    rw [hfmt]
    exact fnu_hit_nat 'h' 'h' _ _ (by decide) (by decide) (by decide)
  have em : findNumUnit 'm' (formatSeconds s) = none := by
    rw [hfmt]
    rw [fnu_skip_nat 'm' (s / 3600) _
      (by intro c hc; simp only [List.head?_cons, Option.some.injEq] at hc; rw [← hc]; decide)
      (by
        intro d hd
        rw [List.dropWhile_cons, if_neg (by decide)] at hd
        simp only [List.head?_cons, Option.some.injEq] at hd
        rw [← hd]; decide)]
    rw [findNumUnit_cons_nondigit 'm' 'h' _ (by decide),
      findNumUnit_cons_nondigit 'm' ' ' _ (by decide)]
    rw [fnu_skip_nat 'm' (s % 60) _
      (by intro c hc; simp only [List.head?_cons, Option.some.injEq] at hc; rw [← hc]; decide)
      (by
        intro d hd
        rw [List.dropWhile_cons, if_neg (by decide)] at hd
        simp only [List.head?_cons, Option.some.injEq] at hd
        rw [← hd]; decide)]
    rw [findNumUnit_cons_nondigit 'm' 's' _ (by decide)]
    rfl
  have es : findNumUnit 's' (formatSeconds s) = some (s % 60) := by
    rw [hfmt]
    rw [fnu_skip_nat 's' (s / 3600) _
      (by intro c hc; simp only [List.head?_cons, Option.some.injEq] at hc; rw [← hc]; decide)
      (by
        intro d hd
        rw [List.dropWhile_cons, if_neg (by decide)] at hd
        simp only [List.head?_cons, Option.some.injEq] at hd
        rw [← hd]; decide)]
    rw [findNumUnit_cons_nondigit 's' 'h' _ (by decide),
      findNumUnit_cons_nondigit 's' ' ' _ (by decide)]
    exact fnu_hit_nat 's' 's' _ [] (by decide) (by decide) (by decide)
  have hlast : ∀ c, (natDigits (s / 3600) ++ 'h' :: ' ' ::
      (natDigits (s % 60) ++ ['s'])).getLast? = some c → isSpaceChar c = false := by
    intro c hc
    rw [show (natDigits (s / 3600) ++ 'h' :: ' ' :: (natDigits (s % 60) ++ ['s']))
      = (natDigits (s / 3600) ++ 'h' :: ' ' :: natDigits (s % 60)) ++ ['s'] from by
        simp] at hc
    rw [List.getLast?_concat] at hc
    simp only [Option.some.injEq] at hc
    rw [← hc]; decide
  have htrim : trimStr (formatSeconds s) = formatSeconds s := by
    rw [hfmt]
    exact trimStr_eq_self _
      (head_not_space_of_digits _ _ (natDigits_ne_nil _) (natDigits_all_digit _)) hlast
  have hcond : ¬(trimStr (formatSeconds s) ≠ [] ∧
      (trimStr (formatSeconds s)).all (fun c => c.isDigit) = true) := by
    rw [htrim, hfmt]
    rintro ⟨-, hall⟩
    have hmem : 'h' ∈ natDigits (s / 3600) ++ 'h' :: ' ' ::
        (natDigits (s % 60) ++ ['s']) := by simp
    have := List.all_eq_true.mp hall 'h' hmem
    simp at this
  simp only [parseTimeToSeconds]
  rw [if_neg hcond, eh, em, es]
  simp only [Option.getD_some, Option.getD_none]
  omega

theorem c3_case_h00 (s : Nat) (hh : 0 < s / 3600) (hm0 : s % 3600 / 60 = 0)
    (hs0 : s % 60 = 0) : parseTimeToSeconds (formatSeconds s) = s := by
  have hfmt : formatSeconds s = natDigits (s / 3600) ++ ['h'] := by
    simp [formatSeconds, joinSpace, hh, hm0, hs0, List.append_assoc]
  have eh : findNumUnit 'h' (formatSeconds s) = some (s / 3600) := by
    rw [hfmt]
    exact fnu_hit_nat 'h' 'h' _ [] (by decide) (by decide) (by decide)
  have em : findNumUnit 'm' (formatSeconds s) = none := by
    rw [hfmt]
    rw [fnu_skip_nat 'm' (s / 3600) _
      (by intro c hc; simp only [List.head?_cons, Option.some.injEq] at hc; rw [← hc]; decide)
      (by
        intro d hd
        rw [List.dropWhile_cons, if_neg (by decide)] at hd
        simp only [List.head?_cons, Option.some.injEq] at hd
        rw [← hd]; decide)]
    rw [findNumUnit_cons_nondigit 'm' 'h' _ (by decide)]
    rfl
  have es : findNumUnit 's' (formatSeconds s) = none := by
    rw [hfmt]
    rw [fnu_skip_nat 's' (s / 3600) _
      (by intro c hc; simp only [List.head?_cons, Option.some.injEq] at hc; rw [← hc]; decide)
      (by
        intro d hd
        rw [List.dropWhile_cons, if_neg (by decide)] at hd
        simp only [List.head?_cons, Option.some.injEq] at hd
        rw [← hd]; decide)]
    rw [findNumUnit_cons_nondigit 's' 'h' _ (by decide)]
    rfl
  have hlast : ∀ c, (natDigits (s / 3600) ++ ['h']).getLast? = some c →
      isSpaceChar c = false := by
    intro c hc
    rw [List.getLast?_concat] at hc
    simp only [Option.some.injEq] at hc
    rw [← hc]; decide
  have htrim : trimStr (formatSeconds s) = formatSeconds s := by
    rw [hfmt]
    exact trimStr_eq_self _
      (head_not_space_of_digits _ _ (natDigits_ne_nil _) (natDigits_all_digit _)) hlast
  have hcond : ¬(trimStr (formatSeconds s) ≠ [] ∧
      (trimStr (formatSeconds s)).all (fun c => c.isDigit) = true) := by
    rw [htrim, hfmt]
    rintro ⟨-, hall⟩
    have hmem : 'h' ∈ natDigits (s / 3600) ++ ['h'] := by simp
    have := List.all_eq_true.mp hall 'h' hmem
    simp at this
  simp only [parseTimeToSeconds]
  rw [if_neg hcond, eh, em, es]
  simp only [Option.getD_some, Option.getD_none]
  omega

theorem c3_case_0ms (s : Nat) (hh0 : s / 3600 = 0) (hm : 0 < s % 3600 / 60)
    (hs : 0 < s % 60) : parseTimeToSeconds (formatSeconds s) = s := by
  have hfmt : formatSeconds s =
      natDigits (s % 3600 / 60) ++ 'm' :: ' ' :: (natDigits (s % 60) ++ ['s']) := by
    simp [formatSeconds, joinSpace, hh0, hm, hs, List.append_assoc]
  have eh : findNumUnit 'h' (formatSeconds s) = none := by
    rw [hfmt]
    rw [fnu_skip_nat 'h' (s % 3600 / 60) _
      (by intro c hc; simp only [List.head?_cons, Option.some.injEq] at hc; rw [← hc]; decide)
      (by
        intro d hd
        rw [List.dropWhile_cons, if_neg (by decide)] at hd
        simp only [List.head?_cons, Option.some.injEq] at hd
        rw [← hd]; decide)]
    rw [findNumUnit_cons_nondigit 'h' 'm' _ (by decide),
      findNumUnit_cons_nondigit 'h' ' ' _ (by decide)]
    rw [fnu_skip_nat 'h' (s % 60) _
      (by intro c hc; simp only [List.head?_cons, Option.some.injEq] at hc; rw [← hc]; decide)
      (by
        intro d hd
        rw [List.dropWhile_cons, if_neg (by decide)] at hd
        simp only [List.head?_cons, Option.some.injEq] at hd
        rw [← hd]; decide)]
    rw [findNumUnit_cons_nondigit 'h' 's' _ (by decide)]
    rfl
  have em : findNumUnit 'm' (formatSeconds s) = some (s % 3600 / 60) := by
    rw [hfmt]
    exact fnu_hit_nat 'm' 'm' _ _ (by decide) (by decide) (by decide)
  have es : findNumUnit 's' (formatSeconds s) = some (s % 60) := by
    rw [hfmt]
    rw [fnu_skip_nat 's' (s % 3600 / 60) _
      (by intro c hc; simp only [List.head?_cons, Option.some.injEq] at hc; rw [← hc]; decide)
      (by
        intro d hd
        rw [List.dropWhile_cons, if_neg (by decide)] at hd
        simp only [List.head?_cons, Option.some.injEq] at hd
        rw [← hd]; decide)]
    rw [findNumUnit_cons_nondigit 's' 'm' _ (by decide),
      findNumUnit_cons_nondigit 's' ' ' _ (by decide)]
    exact fnu_hit_nat 's' 's' _ [] (by decide) (by decide) (by decide)
  have hlast : ∀ c, (natDigits (s % 3600 / 60) ++ 'm' :: ' ' ::
      (natDigits (s % 60) ++ ['s'])).getLast? = some c → isSpaceChar c = false := by
    intro c hc
    rw [show (natDigits (s % 3600 / 60) ++ 'm' :: ' ' :: (natDigits (s % 60) ++ ['s']))
      = (natDigits (s % 3600 / 60) ++ 'm' :: ' ' :: natDigits (s % 60)) ++ ['s'] from by
        simp] at hc
    rw [List.getLast?_concat] at hc
    simp only [Option.some.injEq] at hc
    rw [← hc]; decide
  have htrim : trimStr (formatSeconds s) = formatSeconds s := by
    rw [hfmt]
    exact trimStr_eq_self _
      (head_not_space_of_digits _ _ (natDigits_ne_nil _) (natDigits_all_digit _)) hlast
  have hcond : ¬(trimStr (formatSeconds s) ≠ [] ∧
      (trimStr (formatSeconds s)).all (fun c => c.isDigit) = true) := by
    rw [htrim, hfmt]
    rintro ⟨-, hall⟩
    have hmem : 'm' ∈ natDigits (s % 3600 / 60) ++ 'm' :: ' ' ::
        (natDigits (s % 60) ++ ['s']) := by simp
    have := List.all_eq_true.mp hall 'm' hmem
    simp at this
  simp only [parseTimeToSeconds]
  rw [if_neg hcond, eh, em, es]
  simp only [Option.getD_some, Option.getD_none]
  omega

theorem c3_case_0m0 (s : Nat) (hh0 : s / 3600 = 0) (hm : 0 < s % 3600 / 60)
    (hs0 : s % 60 = 0) : parseTimeToSeconds (formatSeconds s) = s := by
  have hfmt : formatSeconds s = natDigits (s % 3600 / 60) ++ ['m'] := by
    simp [formatSeconds, joinSpace, hh0, hm, hs0, List.append_assoc]
  have eh : findNumUnit 'h' (formatSeconds s) = none := by
    rw [hfmt]
    rw [fnu_skip_nat 'h' (s % 3600 / 60) _
      (by intro c hc; simp only [List.head?_cons, Option.some.injEq] at hc; rw [← hc]; decide)
      (by
        intro d hd
        rw [List.dropWhile_cons, if_neg (by decide)] at hd
        simp only [List.head?_cons, Option.some.injEq] at hd
        rw [← hd]; decide)]
    rw [findNumUnit_cons_nondigit 'h' 'm' _ (by decide)]
    rfl
  have em : findNumUnit 'm' (formatSeconds s) = some (s % 3600 / 60) := by
    rw [hfmt]
    exact fnu_hit_nat 'm' 'm' _ [] (by decide) (by decide) (by decide)
  have es : findNumUnit 's' (formatSeconds s) = none := by
    rw [hfmt]
    rw [fnu_skip_nat 's' (s % 3600 / 60) _
      (by intro c hc; simp only [List.head?_cons, Option.some.injEq] at hc; rw [← hc]; decide)
      (by
        intro d hd
        rw [List.dropWhile_cons, if_neg (by decide)] at hd
        simp only [List.head?_cons, Option.some.injEq] at hd
        rw [← hd]; decide)]
    rw [findNumUnit_cons_nondigit 's' 'm' _ (by decide)]
    rfl
  have hlast : ∀ c, (natDigits (s % 3600 / 60) ++ ['m']).getLast? = some c →
      isSpaceChar c = false := by
    intro c hc
    rw [List.getLast?_concat] at hc
    simp only [Option.some.injEq] at hc
    rw [← hc]; decide
  have htrim : trimStr (formatSeconds s) = formatSeconds s := by
    rw [hfmt]
    exact trimStr_eq_self _
      (head_not_space_of_digits _ _ (natDigits_ne_nil _) (natDigits_all_digit _)) hlast
  have hcond : ¬(trimStr (formatSeconds s) ≠ [] ∧
      (trimStr (formatSeconds s)).all (fun c => c.isDigit) = true) := by
    rw [htrim, hfmt]
    rintro ⟨-, hall⟩
    have hmem : 'm' ∈ natDigits (s % 3600 / 60) ++ ['m'] := by simp
    have := List.all_eq_true.mp hall 'm' hmem
    simp at this
  simp only [parseTimeToSeconds]
  rw [if_neg hcond, eh, em, es]
  simp only [Option.getD_some, Option.getD_none]
  omega

theorem c3_case_00s (s : Nat) (hh0 : s / 3600 = 0) (hm0 : s % 3600 / 60 = 0)
    (hs : 0 < s % 60) : parseTimeToSeconds (formatSeconds s) = s := by
  have hfmt : formatSeconds s = natDigits (s % 60) ++ ['s'] := by
    simp [formatSeconds, joinSpace, hh0, hm0, hs, List.append_assoc]
  have eh : findNumUnit 'h' (formatSeconds s) = none := by
    rw [hfmt]
    rw [fnu_skip_nat 'h' (s % 60) _
      (by intro c hc; simp only [List.head?_cons, Option.some.injEq] at hc; rw [← hc]; decide)
      (by
        intro d hd
        rw [List.dropWhile_cons, if_neg (by decide)] at hd
        simp only [List.head?_cons, Option.some.injEq] at hd
        rw [← hd]; decide)]
    rw [findNumUnit_cons_nondigit 'h' 's' _ (by decide)]
    rfl
  have em : findNumUnit 'm' (formatSeconds s) = none := by
    rw [hfmt]
    rw [fnu_skip_nat 'm' (s % 60) _
      (by intro c hc; simp only [List.head?_cons, Option.some.injEq] at hc; rw [← hc]; decide)
      (by
        intro d hd
        rw [List.dropWhile_cons, if_neg (by decide)] at hd
        simp only [List.head?_cons, Option.some.injEq] at hd
        rw [← hd]; decide)]
    rw [findNumUnit_cons_nondigit 'm' 's' _ (by decide)]
    rfl
  have es : findNumUnit 's' (formatSeconds s) = some (s % 60) := by
    rw [hfmt]
    exact fnu_hit_nat 's' 's' _ [] (by decide) (by decide) (by decide)
  have hlast : ∀ c, (natDigits (s % 60) ++ ['s']).getLast? = some c →
      isSpaceChar c = false := by
    intro c hc
    rw [List.getLast?_concat] at hc
    simp only [Option.some.injEq] at hc
    rw [← hc]; decide
  have htrim : trimStr (formatSeconds s) = formatSeconds s := by
    rw [hfmt]
    exact trimStr_eq_self _
      (head_not_space_of_digits _ _ (natDigits_ne_nil _) (natDigits_all_digit _)) hlast
  have hcond : ¬(trimStr (formatSeconds s) ≠ [] ∧
      (trimStr (formatSeconds s)).all (fun c => c.isDigit) = true) := by
    rw [htrim, hfmt]
    rintro ⟨-, hall⟩
    have hmem : 's' ∈ natDigits (s % 60) ++ ['s'] := by simp
    have := List.all_eq_true.mp hall 's' hmem
    simp at this
  simp only [parseTimeToSeconds]
  rw [if_neg hcond, eh, em, es]
  simp only [Option.getD_some, Option.getD_none]
  omega

/-- C3: the duration parser inverts the duration formatter: for every
non-negative whole-second count `s`, `parseTimeToSeconds (formatSeconds s)`
returns `s` (the code's `parseTimeToSeconds` applied to the code's
`formatSeconds` output). -/
theorem c3_duration_roundtrip (s : Nat) : parseTimeToSeconds (formatSeconds s) = s := by
  by_cases hh : 0 < s / 3600 <;> by_cases hm : 0 < s % 3600 / 60 <;>
    by_cases hs : 0 < s % 60
  · exact c3_case_hms s hh hm hs
  · exact c3_case_hm0 s hh hm (by omega)
  · exact c3_case_h0s s hh (by omega) hs
  · exact c3_case_h00 s hh (by omega) (by omega)
  · exact c3_case_0ms s (by omega) hm hs
  · exact c3_case_0m0 s (by omega) hm (by omega)
  · exact c3_case_00s s (by omega) (by omega) hs
  · have h0 : s = 0 := by omega
    subst h0
    decide

/-! Embedding of `parseEstimatedTime` and its three regular expressions.
The JavaScript engine scans for the leftmost match, advancing the start
position one character at a time; greedy and lazy quantifiers are resolved
as the backtracking engine does.  The `.` atom does not match a line
terminator (modelled by `'\n'` and `'\r'`; the texts involved are ASCII). -/

/-- Case-insensitive literal match: strips the pattern (given in lower
case) from the front of the text, comparing lowered characters. -/
def stripLitCI : List Char → List Char → Option (List Char)
  | [], t => some t
  | _ :: _, [] => none
  | p :: ps, c :: cs => if c.toLower = p then stripLitCI ps cs else none

/-- Matching of `(.+?)(?:\n|$)` at a fixed position: succeeds when the
first character is not a line terminator, capturing up to (excluding) the
next `'\n'` or the end; a stop at `'\r'` cannot satisfy the terminator
group, so the match fails there. -/
def lazyCapture (t : List Char) : Option (List Char) :=
  let run := t.takeWhile (fun c => !(c = '\n' || c = '\r'))
  if run = [] then none
  else
    match (t.drop run.length).head? with
    | none => some run
    | some c => if c = '\n' then some run else none

/-- Backtracking of a greedy character-class star followed by
`(.+?)(?:\n|$)`: the class run length is tried longest first. -/
def backtrackTail (t : List Char) : Nat → Option (List Char)
  | 0 => lazyCapture t
  | k + 1 =>
    match lazyCapture (t.drop (k + 1)) with
    | some v => some v
    | none => backtrackTail t k

/-- Matching of `p*(.+?)(?:\n|$)` at a fixed position, for a character
class `p` (`\s` in pattern one, `[:\s]` in pattern three). -/
def matchTailWith (p : Char → Bool) (t : List Char) : Option (List Char) :=
  backtrackTail t ((t.takeWhile p).length)

/-- Matching of `.*?=\s*(.+?)(?:\n|$)` at a fixed position: the lazy dot
star tries each `=` in turn, never crossing a line terminator. -/
def matchEqTail : List Char → Option (List Char)
  | [] => none
  | c :: cs =>
    if c = '\n' || c = '\r' then none
    else if c = '=' then
      match matchTailWith isSpaceChar cs with
      | some v => some v
      | none => matchEqTail cs
    else matchEqTail cs

/-- Leftmost match of `/;\s*estimated printing time.*?=\s*(.+?)(?:\n|$)/i`,
returning the first capture group. -/
def matchP1 : List Char → Option (List Char)
  | [] => none
  | c :: cs =>
    match
      (if c = ';' then
        match stripLitCI "estimated printing time".data (cs.dropWhile isSpaceChar) with
        | some t2 => matchEqTail t2
        | none => none
      else none) with
    | some v => some v
    | none => matchP1 cs

/-- Leftmost match of `/;\s*TIME[_:]?\s*(\d+)/i`, returning the first
capture group (a maximal digit run). -/
def matchP2 : List Char → Option (List Char)
  | [] => none
  | c :: cs =>
    match
      (if c = ';' then
        match stripLitCI "time".data (cs.dropWhile isSpaceChar) with
        | some t2 =>
          let t3 := match t2 with
            | d :: ds => if d = '_' || d = ':' then ds else d :: ds
            | [] => []
          let run := (t3.dropWhile isSpaceChar).takeWhile (fun x => x.isDigit)
          if run = [] then none else some run
        | none => none
      else none) with
    | some v => some v
    | none => matchP2 cs

/-- Leftmost match of `/;\s*total estimated time[:\s]*(.+?)(?:\n|$)/i`,
returning the first capture group. -/
def matchP3 : List Char → Option (List Char)
  | [] => none
  | c :: cs =>
    match
      (if c = ';' then
        match stripLitCI "total estimated time".data (cs.dropWhile isSpaceChar) with
        | some t2 => matchTailWith (fun x => x = ':' || isSpaceChar x) t2
        | none => none
      else none) with
    | some v => some v
    | none => matchP3 cs

/-- Post-processing of a capture in `parseEstimatedTime`: the trimmed
capture is rendered through `formatSeconds` when it is a bare integer and
is returned as is otherwise. -/
def processValue (v : List Char) : List Char :=
  let value := trimStr v
  if value ≠ [] ∧ value.all (fun c => c.isDigit) = true then
    formatSeconds (parseDigits value)
  else value

/-- Embedding of `parseEstimatedTime` from `fileProcessor.ts`: the three
patterns are tried in fixed order over the whole text; the first pattern
that matches anywhere supplies the capture, and `none` is returned when no
pattern matches. -/
def parseEstimatedTime (gcode : List Char) : Option (List Char) :=
  match matchP1 gcode with
  | some v => some (processValue v)
  | none =>
    match matchP2 gcode with
    | some v => some (processValue v)
    | none =>
      match matchP3 gcode with
      | some v => some (processValue v)
      | none => none

/-! ZIP archive model and the extraction pipeline of
`extractAllPlatesFromZip`. -/

/-- One member of a parsed ZIP archive: its path, whether it is a folder
entry, and its decoded text content. -/
structure ZipEntry where
  name : List Char
  dir : Bool
  content : List Char
deriving DecidableEq

/-- A parsed ZIP archive: the member list in directory order (the
enumeration order of `Object.keys(zip.files)`; names in a ZIP object are
unique). -/
abbrev Zip := List ZipEntry

/-- First member carrying the given name. -/
def zipFind : Zip → List Char → Option ZipEntry
  | [], _ => none
  | e :: es, path => if e.name = path then some e else zipFind es path

/-- Embedding of `zip.file(path)`: the member of that exact name, or
nothing when the name is absent or names a folder entry. -/
def zipFile (z : Zip) (path : List Char) : Option ZipEntry :=
  match zipFind z path with
  | some e => if e.dir then none else some e
  | none => none

/-- Embedding of `zip.files[name].dir` for a name taken from the key
list. -/
def fileDir (z : Zip) (n : List Char) : Bool :=
  match zipFind z n with
  | some e => e.dir
  | none => false

/-- Test for the G-code member suffix, embedding
`name.endsWith('.gcode')`. -/
def endsWithGcode (n : List Char) : Bool := ".gcode".data.isSuffixOf n

/-- Conventional member path `Metadata/plate_<n>.gcode`. -/
def platePath (n : Nat) : List Char :=
  "Metadata/plate_".data ++ natDigits n ++ ".gcode".data

/-- Embedding of `content.split('\n')`. -/
def splitNl : List Char → List (List Char)
  | [] => [[]]
  | c :: cs =>
    if c = '\n' then [] :: splitNl cs
    else
      match splitNl cs with
      | s :: ss => (c :: s) :: ss
      | [] => [[c]]

/-- Per-plate record produced by extraction. -/
structure ParsedGCodeInfo where
  gcode : List Char
  lineCount : Nat
  estimatedTime : Option (List Char)
  plateNumber : Nat
deriving DecidableEq

/-- Record the extractor pushes for one plate: decoded content, a
split-based line count, the scanned estimate and the plate number. -/
def mkPlate (content : List Char) (n : Nat) : ParsedGCodeInfo :=
  ⟨content, (splitNl content).length, parseEstimatedTime content, n⟩

/-- Plates found by probing `Metadata/plate_1.gcode` through
`Metadata/plate_16.gcode` in ascending order. -/
def conventionalPlates (z : Zip) : List ParsedGCodeInfo :=
  (List.range' 1 16).filterMap (fun plateNum =>
    match zipFile z (platePath plateNum) with
    | some e => some (mkPlate e.content plateNum)
    | none => none)

/-- Lexicographic comparison of member names by code unit, the order of
the default JavaScript array sort on strings. -/
def lexLe : List Char → List Char → Bool
  | [], _ => true
  | _ :: _, [] => false
  | a :: as, b :: bs => if a = b then lexLe as bs else decide (a.toNat < b.toNat)

/-- The sorting relation used for the fallback member list. -/
def lexR (a b : List Char) : Prop := lexLe a b = true

instance : DecidableRel lexR := fun a b => Bool.decEq (lexLe a b) true

/-- Embedding of `gcodeFiles.sort()`. -/
def sortNames (names : List (List Char)) : List (List Char) :=
  List.insertionSort lexR names

/-- Names kept by the fallback scan of the member list. -/
def matchingNames (z : Zip) : List (List Char) :=
  (z.map (fun e => e.name)).filter (fun n => endsWithGcode n && !fileDir z n)

/-- Pairing of list elements with their position, embedding the indexed
`for` loop of the fallback branch. -/
def withIdx {α : Type} : Nat → List α → List (Nat × α)
  | _, [] => []
  | i, a :: as => (i, a) :: withIdx (i + 1) as

/-- Plates found by the fallback scan: every non-folder member whose name
ends in `.gcode`, in lexicographic name order, each with its one-based
position as plate number; a member whose decoded content is empty is
skipped by the truthiness test `if (gcodeContent)`. -/
def fallbackPlates (z : Zip) : List ParsedGCodeInfo :=
  (withIdx 0 (sortNames (matchingNames z))).filterMap (fun p =>
    match zipFile z p.2 with
    | some e => if e.content ≠ [] then some (mkPlate e.content (p.1 + 1)) else none
    | none => none)

/-- Error wrapper thrown by the processing pipeline
(`FileProcessingError` in the source). -/
structure FileProcessingError where
  message : List Char
deriving DecidableEq

/-- Message of the invalid-archive failure. -/
def invalidZipMsg (fileName : List Char) : List Char :=
  '"' :: fileName ++
    "\" is not a valid ZIP archive. Make sure you\x27re uploading a .gcode.3mf file.".data

/-- Message of the no-G-code failure. -/
def noGcodeMsg (fileName : List Char) : List Char :=
  '"' :: fileName ++
    ("\" doesn\x27t contain any G-code. Make sure you exported it as " ++
      "\"All plates sliced file\" or \"Plate sliced file\" from Bambu Studio.").data

/-- Result of a successful extraction. -/
structure ExtractedPlates where
  plates : List ParsedGCodeInfo
  originalZip : Zip
  fileName : List Char
deriving DecidableEq

/-- Embedding of `extractAllPlatesFromZip`: the `parsed` argument is the
outcome of `JSZip.loadAsync` on the uploaded bytes (`none` when the bytes
cannot be parsed as a ZIP, in which case the code throws the
invalid-archive error).  Conventional plates are probed first, the
fallback scan runs only when none is found, and an empty result throws the
no-G-code error. -/
def extractAllPlatesFromZip (fileName : List Char) (parsed : Option Zip) :
    Except FileProcessingError ExtractedPlates :=
  match parsed with
  | none => .error ⟨invalidZipMsg fileName⟩
  | some z =>
    let plates0 := conventionalPlates z
    let plates := if plates0.length = 0 then fallbackPlates z else plates0
    if plates.length = 0 then .error ⟨noGcodeMsg fileName⟩
    else .ok ⟨plates, z, fileName⟩

/-! The work-queue data model and the collaborator-facing operations of
the surrounding application (`App.tsx` and `FileList.tsx`). -/

/-- Work-queue entry (`GCodeFile` in `types.ts`).  The `plateNumber`
field is typed `number | null` in the source but every entry this
pipeline creates carries a plate number, so it is modelled as `Nat`. -/
structure GCodeFile where
  id : List Char
  fileName : List Char
  displayName : List Char
  gcode : List Char
  originalZip : Zip
  lineCount : Nat
  estimatedTime : Option (List Char)
  copies : Nat
  plateNumber : Nat
  sourceFile : List Char
deriving DecidableEq

/-- Embedding of `processUploadedFile`.  `mkId` supplies the identifier
`generateId()` returns for the i-th produced entry (the source value is
built from the clock and a random number, so it is a parameter of the
model). -/
def processUploadedFile (mkId : Nat → List Char) (fileName : List Char)
    (parsed : Option Zip) : Except FileProcessingError (List GCodeFile) :=
  (extractAllPlatesFromZip fileName parsed).map (fun ep =>
    (withIdx 0 ep.plates).map (fun p =>
      { id := mkId p.1
        fileName := ep.fileName
        displayName :=
          if ep.plates.length > 1 then
            ep.fileName ++ " — Plate ".data ++ natDigits p.2.plateNumber
          else ep.fileName
        gcode := p.2.gcode
        originalZip := ep.originalZip
        lineCount := p.2.lineCount
        estimatedTime := p.2.estimatedTime
        copies := 1
        plateNumber := p.2.plateNumber
        sourceFile := ep.fileName }))

/-- The JavaScript truthiness test `if (file.estimatedTime)`: holds
exactly for a non-null, non-empty estimate string; this is how the code
decides that a file carries an estimate. -/
def hasEstimate (f : GCodeFile) : Bool :=
  match f.estimatedTime with
  | some t => decide (t ≠ [])
  | none => false

/-- Body of the accumulation loop of `calculateTotalTime`: a file passing
the truthiness test adds `parseTimeToSeconds(estimate) * copies` to the
running total and sets the has-any-time flag. -/
def calcStep (acc : Nat × Bool) (f : GCodeFile) : Nat × Bool :=
  match f.estimatedTime with
  | some t => if t ≠ [] then (acc.1 + parseTimeToSeconds t * f.copies, true) else acc
  | none => acc

/-- Embedding of `calculateTotalTime`: a running total over the files
passing the truthiness test, returned formatted, or `null` when no file
passed. -/
def calculateTotalTime (files : List GCodeFile) : Option (List Char) :=
  let r := files.foldl calcStep ((0 : Nat), false)
  if r.2 = true then some (formatSeconds r.1) else none

/-- Embedding of the clamp in `handleCopiesChange`:
`Math.max(1, Math.min(99, Number.parseInt(value, 10) || 1))`.  The parsed
input is an integer (`0` is falsy, so `|| 1` replaces it); the result is
at least `1`, hence stored as `Nat`. -/
def handleCopiesChange (n : Int) : Nat :=
  (max 1 (min 99 (if n = 0 then 1 else n))).toNat

/-- Embedding of the `onUpdateCopies` state update in `App.tsx`. -/
def updateCopies (files : List GCodeFile) (id : List Char) (copies : Nat) :
    List GCodeFile :=
  files.map (fun f => if f.id = id then { f with copies := copies } else f)

/-- Embedding of the `handleRemove` state update in `App.tsx`. -/
def removeFile (files : List GCodeFile) (id : List Char) : List GCodeFile :=
  files.filter (fun f => decide (f.id ≠ id))

/-- Copies value sent by the increment button (`incrementCopies` calls
the update only below the bound). -/
def incCopiesValue (c : Nat) : Nat := if c < 99 then c + 1 else c

/-- Copies value sent by the decrement button. -/
def decCopiesValue (c : Nat) : Nat := if 1 < c then c - 1 else c

/-- Embedding of the batch loop of `handleFilesSelected` in `App.tsx`:
each selected file is processed in submission order; produced entries are
appended to `newFiles`, failure messages are appended to `errors`; the
queue becomes `prev ++ newFiles` and the collected messages are surfaced
together after the loop. -/
def batchStep (mkId : Nat → List Char) (acc : List GCodeFile × List (List Char))
    (fp : List Char × Option Zip) : List GCodeFile × List (List Char) :=
  match processUploadedFile mkId fp.1 fp.2 with
  | .ok gs => (acc.1 ++ gs, acc.2)
  | .error e => (acc.1, acc.2 ++ [e.message])

def handleFilesSelected (mkId : Nat → List Char) (prev : List GCodeFile)
    (selected : List (List Char × Option Zip)) :
    List GCodeFile × List (List Char) :=
  let r := selected.foldl (batchStep mkId) (([], []) : List GCodeFile × List (List Char))
  (prev ++ r.1, r.2)

/-! Inversion lemmas for the extraction pipeline. -/

theorem extract_ok_inv (fileName : List Char) (z : Zip) (ep : ExtractedPlates)
    (hok : extractAllPlatesFromZip fileName (some z) = .ok ep) :
    ep.originalZip = z ∧ ep.fileName = fileName ∧
      ((conventionalPlates z ≠ [] ∧ ep.plates = conventionalPlates z) ∨
        (conventionalPlates z = [] ∧ ep.plates = fallbackPlates z)) := by
  simp only [extractAllPlatesFromZip] at hok
  by_cases h0 : (conventionalPlates z).length = 0
  · rw [if_pos h0] at hok
    by_cases h1 : (fallbackPlates z).length = 0
    · rw [if_pos h1] at hok
      exact absurd hok (by simp)
    · rw [if_neg h1] at hok
      have h2 := Except.ok.inj hok
      rw [← h2]
      exact ⟨rfl, rfl, Or.inr ⟨List.length_eq_zero.mp h0, rfl⟩⟩
  · rw [if_neg h0, if_neg h0] at hok
    have h2 := Except.ok.inj hok
    rw [← h2]
    exact ⟨rfl, rfl, Or.inl ⟨fun h => h0 (by rw [h]; rfl), rfl⟩⟩

theorem mem_conventionalPlates {z : Zip} {p : ParsedGCodeInfo}
    (hp : p ∈ conventionalPlates z) :
    ∃ e n, zipFile z (platePath n) = some e ∧ p = mkPlate e.content n ∧
      1 ≤ n ∧ n ≤ 16 := by
  rcases List.mem_filterMap.mp hp with ⟨n, hn, hsome⟩
  have hrange := List.mem_range'_1.mp hn
  cases hzf : zipFile z (platePath n) with
  | none => rw [hzf] at hsome; simp at hsome
  | some e =>
    rw [hzf] at hsome
    simp only [Option.some.injEq] at hsome
    exact ⟨e, n, hzf, hsome.symm, by omega, by omega⟩

theorem zipFind_name : ∀ (z : Zip) (path : List Char) (e : ZipEntry),
    zipFind z path = some e → e.name = path := by
  intro z path e h
  induction z with
  | nil => simp [zipFind] at h
  | cons a as ih =>
    simp only [zipFind] at h
    by_cases ha : a.name = path
    · rw [if_pos ha] at h
      simp only [Option.some.injEq] at h
      rw [← h]
      exact ha
    · rw [if_neg ha] at h
      exact ih h

theorem zipFile_name {z : Zip} {path : List Char} {e : ZipEntry}
    (h : zipFile z path = some e) : e.name = path ∧ e.dir = false ∧
      zipFind z path = some e := by
  simp only [zipFile] at h
  cases hfind : zipFind z path with
  | none => rw [hfind] at h; simp at h
  | some e2 =>
    rw [hfind] at h
    dsimp only at h
    by_cases hd : e2.dir
    · rw [if_pos hd] at h; simp at h
    · rw [if_neg hd] at h
      simp only [Option.some.injEq] at h
      subst h
      exact ⟨zipFind_name z path e2 hfind, by simpa using hd, rfl⟩

theorem mem_fallbackPlates {z : Zip} {p : ParsedGCodeInfo}
    (hp : p ∈ fallbackPlates z) :
    ∃ e i, (i, e.name) ∈ withIdx 0 (sortNames (matchingNames z)) ∧
      zipFile z e.name = some e ∧ e.content ≠ [] ∧ p = mkPlate e.content (i + 1) := by
  rcases List.mem_filterMap.mp hp with ⟨q, hq, hsome⟩
  cases hzf : zipFile z q.2 with
  | none => rw [hzf] at hsome; simp at hsome
  | some e =>
    rw [hzf] at hsome
    dsimp only at hsome
    by_cases hc : e.content ≠ []
    · rw [if_pos hc] at hsome
      simp only [Option.some.injEq] at hsome
      have hname : e.name = q.2 := (zipFile_name hzf).1
      refine ⟨e, q.1, ?_, by rw [hname]; exact hzf, hc, hsome.symm⟩
      rw [hname]
      exact (Prod.mk.eta (p := q)) ▸ hq
    · rw [if_neg hc] at hsome; simp at hsome

/-- C5: when the uploaded bytes cannot be parsed as a ZIP container,
extraction fails with the invalid-archive error, the message names the
offending file, and no plate list is returned. -/
theorem c5_invalid_archive (fileName : List Char) :
    extractAllPlatesFromZip fileName none = .error ⟨invalidZipMsg fileName⟩ ∧
      fileName <:+: invalidZipMsg fileName ∧
      ∀ ep, extractAllPlatesFromZip fileName none ≠ .ok ep := by
  refine ⟨rfl, ?_, ?_⟩
  · exact ⟨['"'],
      "\" is not a valid ZIP archive. Make sure you\x27re uploading a .gcode.3mf file.".data,
      by simp [invalidZipMsg]⟩
  · intro ep h
    exact Except.noConfusion h

theorem splitNl_ne_nil : ∀ s, splitNl s ≠ []
  | [] => by simp [splitNl]
  | c :: cs => by
    simp only [splitNl]
    by_cases h : c = '\n'
    · simp [h]
    · simp only [h, if_false]
      cases h2 : splitNl cs <;> simp

theorem splitNl_length (s : List Char) : (splitNl s).length = s.count '\n' + 1 := by
  induction s with
  | nil => rfl
  | cons c cs ih =>
    by_cases h : c = '\n'
    · subst h
      simp [splitNl, List.count_cons, ih]
    · cases h2 : splitNl cs with
      | nil => exact absurd h2 (splitNl_ne_nil cs)
      | cons s0 ss =>
        simp only [splitNl, h, if_false, h2, List.length_cons]
        rw [h2] at ih
        simp only [List.length_cons] at ih
        simp [List.count_cons, h, ih]

/-- C4: every plate record an extraction returns stores as line count the
split-based segment count of its payload, which equals one more than the
number of newlines, so a payload ending in a newline still counts its
final empty segment. -/
theorem c4_line_count (fileName : List Char) (parsed : Option Zip)
    (ep : ExtractedPlates) (hok : extractAllPlatesFromZip fileName parsed = .ok ep) :
    ∀ p ∈ ep.plates, p.lineCount = (splitNl p.gcode).length ∧
      p.lineCount = p.gcode.count '\n' + 1 := by
  intro p hp
  cases parsed with
  | none => exact absurd hok (by simp [extractAllPlatesFromZip])
  | some z =>
    rcases extract_ok_inv fileName z ep hok with ⟨-, -, ⟨-, hpl⟩ | ⟨-, hpl⟩⟩
    · rw [hpl] at hp
      rcases mem_conventionalPlates hp with ⟨e, n, -, hpe, -, -⟩
      subst hpe
      exact ⟨rfl, splitNl_length e.content⟩
    · rw [hpl] at hp
      rcases mem_fallbackPlates hp with ⟨e, i, -, -, -, hpe⟩
      subst hpe
      exact ⟨rfl, splitNl_length e.content⟩

/-- Witness for C4 at a concrete archive whose single plate payload ends
in a newline: two text lines plus the trailing empty segment count as
three. -/
theorem c4_line_count_witness :
    (mkPlate "G1\nG2\n".data 1).lineCount = 3 ∧
      (mkPlate "G1\nG2\n".data 1).lineCount =
        (mkPlate "G1\nG2\n".data 1).gcode.count '\n' + 1 := by
  have h := c4_line_count "a.3mf".data
    (some [⟨platePath 1, false, "G1\nG2\n".data⟩])
    ⟨[mkPlate "G1\nG2\n".data 1], [⟨platePath 1, false, "G1\nG2\n".data⟩], "a.3mf".data⟩
    (by rfl) (mkPlate "G1\nG2\n".data 1) (by simp)
  exact ⟨by rw [h.1]; rfl, h.2⟩

/-! Aggregation, copies clamping and batch processing. -/

/-- Contribution of one queue entry to the aggregate estimate. -/
def fileWeight (f : GCodeFile) : Nat :=
  if hasEstimate f = true then parseTimeToSeconds (f.estimatedTime.getD []) * f.copies
  else 0

theorem calcStep_foldl : ∀ (files : List GCodeFile) (n : Nat) (b : Bool),
    files.foldl calcStep (n, b) =
      (n + (files.map fileWeight).sum, b || files.any hasEstimate) := by
  intro files
  induction files with
  | nil => intro n b; simp
  | cons f fs ih =>
    intro n b
    simp only [List.foldl_cons, List.map_cons, List.sum_cons, List.any_cons]
    cases hft : f.estimatedTime with
    | none =>
      simp only [calcStep, hft]
      rw [ih]
      simp [fileWeight, hasEstimate, hft]
    | some t =>
      by_cases hte : t ≠ []
      · simp only [calcStep, hft, if_pos hte]
        rw [ih]
        have hw : fileWeight f = parseTimeToSeconds t * f.copies := by
          simp [fileWeight, hasEstimate, hft, hte]
        have hh : hasEstimate f = true := by simp [hasEstimate, hft, hte]
        rw [hw, hh]
        simp [Nat.add_assoc]
      · simp only [calcStep, hft, if_neg hte]
        rw [ih]
        have hw : fileWeight f = 0 := by simp [fileWeight, hasEstimate, hft, hte]
        have hh : hasEstimate f = false := by simp [hasEstimate, hft, hte]
        rw [hw, hh]
        simp

theorem calculateTotalTime_eq (files : List GCodeFile) :
    calculateTotalTime files =
      if files.any hasEstimate = true then
        some (formatSeconds (files.map fileWeight).sum)
      else none := by
  simp only [calculateTotalTime, calcStep_foldl files 0 false]
  simp

/-- C7: aggregation returns nothing exactly when no file in the list
carries an estimate (a non-empty estimate string, the truthiness test the
code performs); otherwise it formats the sum over the estimate-carrying
files of the parsed estimate times the copy count, files without an
estimate contributing zero without suppressing the result. -/
theorem c7_aggregate_time (files : List GCodeFile) :
    (calculateTotalTime files = none ↔ ∀ f ∈ files, hasEstimate f = false) ∧
      ((∃ f ∈ files, hasEstimate f = true) →
        calculateTotalTime files = some (formatSeconds (files.map fileWeight).sum)) := by
  rw [calculateTotalTime_eq]
  by_cases h : files.any hasEstimate = true
  · rw [if_pos h]
    constructor
    · constructor
      · intro hc; exact absurd hc (by simp)
      · intro hall
        rcases List.any_eq_true.mp h with ⟨f, hf, hft⟩
        rw [hall f hf] at hft
        exact absurd hft (by simp)
    · intro _; rfl
  · rw [if_neg h]
    constructor
    · constructor
      · intro _ f hf
        cases hft : hasEstimate f
        · rfl
        · exact absurd (List.any_eq_true.mpr ⟨f, hf, hft⟩) h
      · intro _; rfl
    · intro hex
      rcases hex with ⟨f, hf, hft⟩
      exact absurd (List.any_eq_true.mpr ⟨f, hf, hft⟩) h

/-- Concrete queue entry carrying a one-minute estimate and two copies. -/
def sampleEstFile : GCodeFile :=
  { id := "a1".data, fileName := "a.gcode.3mf".data, displayName := "a.gcode.3mf".data,
    gcode := "G1\n".data, originalZip := [], lineCount := 2,
    estimatedTime := some "1m".data, copies := 2, plateNumber := 1,
    sourceFile := "a.gcode.3mf".data }

/-- Concrete queue entry without an estimate. -/
def sampleNoEstFile : GCodeFile :=
  { id := "b1".data, fileName := "b.gcode.3mf".data, displayName := "b.gcode.3mf".data,
    gcode := "G2\n".data, originalZip := [], lineCount := 2,
    estimatedTime := none, copies := 5, plateNumber := 1,
    sourceFile := "b.gcode.3mf".data }

/-- Witness for C7: one file with a one-minute estimate and two copies
next to one estimate-less file aggregates to two minutes. -/
theorem c7_aggregate_time_witness :
    calculateTotalTime [sampleEstFile, sampleNoEstFile] = some "2m".data := by
  have h := (c7_aggregate_time [sampleEstFile, sampleNoEstFile]).2
    ⟨sampleEstFile, List.mem_cons_self _ _, by decide⟩
  rw [h]
  rfl

/-- Queue-entry copies invariant of the specification. -/
def copiesInv (f : GCodeFile) : Prop := 1 ≤ f.copies ∧ f.copies ≤ 99

/-- C8: the copies-change clamp maps every requested integer into
`[1, 99]` (`0 → 1`, `-5 → 1`, `150 → 99`), upload creates every entry
with one copy, and every queue operation (clamped update, the guarded
increment and decrement, removal, reordering, appending fresh uploads)
preserves the invariant that all copy counts lie in `[1, 99]`. -/
theorem c8_copies_invariant :
    (∀ n : Int, 1 ≤ handleCopiesChange n ∧ handleCopiesChange n ≤ 99) ∧
      handleCopiesChange 0 = 1 ∧ handleCopiesChange (-5) = 1 ∧
      handleCopiesChange 150 = 99 ∧
      (∀ mkId fileName parsed gs, processUploadedFile mkId fileName parsed = .ok gs →
        ∀ g ∈ gs, g.copies = 1) ∧
      (∀ c, 1 ≤ c → c ≤ 99 → 1 ≤ incCopiesValue c ∧ incCopiesValue c ≤ 99 ∧
        1 ≤ decCopiesValue c ∧ decCopiesValue c ≤ 99) ∧
      (∀ files id c, 1 ≤ c → c ≤ 99 → (∀ f ∈ files, copiesInv f) →
        ∀ f ∈ updateCopies files id c, copiesInv f) ∧
      (∀ files id, (∀ f ∈ files, copiesInv f) → ∀ f ∈ removeFile files id, copiesInv f) ∧
      (∀ files files2 : List GCodeFile, files2.Perm files → (∀ f ∈ files, copiesInv f) →
        ∀ f ∈ files2, copiesInv f) ∧
      (∀ files gs : List GCodeFile, (∀ f ∈ files, copiesInv f) →
        (∀ g ∈ gs, g.copies = 1) → ∀ f ∈ files ++ gs, copiesInv f) := by
  refine ⟨?_, by decide, by decide, by decide, ?_, ?_, ?_, ?_, ?_, ?_⟩
  · intro n
    simp only [handleCopiesChange, max_def, min_def]
    split_ifs <;> omega
  · intro mkId fileName parsed gs hok g hg
    cases hext : extractAllPlatesFromZip fileName parsed with
    | error e => rw [processUploadedFile, hext] at hok; exact absurd hok (by simp [Except.map])
    | ok ep =>
      rw [processUploadedFile, hext] at hok
      simp only [Except.map, Except.ok.injEq] at hok
      rw [← hok] at hg
      rcases List.mem_map.mp hg with ⟨p, -, hgp⟩
      rw [← hgp]
  · intro c h1 h2
    simp only [incCopiesValue, decCopiesValue]
    split_ifs <;> omega
  · intro files id c h1 h2 hinv f hf
    rcases List.mem_map.mp hf with ⟨f0, hf0, hff⟩
    by_cases hid : f0.id = id
    · rw [if_pos hid] at hff
      rw [← hff]
      exact ⟨h1, h2⟩
    · rw [if_neg hid] at hff
      rw [← hff]
      exact hinv f0 hf0
  · intro files id hinv f hf
    exact hinv f (List.mem_of_mem_filter hf)
  · intro files files2 hperm hinv f hf
    exact hinv f (hperm.mem_iff.mp hf)
  · intro files gs hinv hgs f hf
    rcases List.mem_append.mp hf with h | h
    · exact hinv f h
    · rw [copiesInv, hgs f h]
      omega

/-- Witness for C8: the clamp at `-5` and the update of a concrete
one-entry queue with the clamp of `150` both stay inside `[1, 99]`. -/
theorem c8_copies_invariant_witness :
    1 ≤ handleCopiesChange (-5) ∧ handleCopiesChange (-5) ≤ 99 ∧
      ∀ f ∈ updateCopies [sampleEstFile] sampleEstFile.id (handleCopiesChange 150),
        copiesInv f := by
  obtain ⟨h1, -, -, -, -, -, h7, -, -, -⟩ := c8_copies_invariant
  refine ⟨(h1 (-5)).1, (h1 (-5)).2, ?_⟩
  exact h7 [sampleEstFile] sampleEstFile.id (handleCopiesChange 150) (by decide) (by decide)
    (by
      intro f hf
      rw [List.mem_singleton.mp hf]
      exact ⟨by decide, by decide⟩)

theorem filterMap_length_eq_count {α β : Type} (g : α → Option β) (l : List α) :
    (l.filterMap g).length = (l.filter (fun x => (g x).isSome)).length := by
  induction l with
  | nil => rfl
  | cons a as ih =>
    simp only [List.filterMap_cons, List.filter_cons]
    cases h : g a <;> simp [h, ih]

theorem batchStep_foldl (mkId : Nat → List Char) :
    ∀ (selected : List (List Char × Option Zip)) (acc1 : List GCodeFile)
      (acc2 : List (List Char)),
      selected.foldl (batchStep mkId) (acc1, acc2) =
        (acc1 ++ (selected.filterMap
            (fun fp => (processUploadedFile mkId fp.1 fp.2).toOption)).flatten,
          acc2 ++ selected.filterMap (fun fp =>
            match processUploadedFile mkId fp.1 fp.2 with
            | .ok _ => none
            | .error e => some e.message)) := by
  intro selected
  induction selected with
  | nil => intro a b; simp
  | cons fp fps ih =>
    intro a b
    simp only [List.foldl_cons, List.filterMap_cons]
    cases hp : processUploadedFile mkId fp.1 fp.2 with
    | ok gs =>
      simp only [batchStep, hp]
      rw [ih]
      simp [Except.toOption, List.append_assoc]
    | error e =>
      simp only [batchStep, hp]
      rw [ih]
      simp [Except.toOption, List.append_assoc]

/-- C9: the batch handler processes every selected file in submission
order; entries of successful uploads are appended to the previous queue in
that order, each failing upload contributes exactly one error message, and
the collected messages are returned together after the whole batch. -/
theorem c9_batch_errors (mkId : Nat → List Char) (prev : List GCodeFile)
    (selected : List (List Char × Option Zip)) :
    (handleFilesSelected mkId prev selected).1 =
      prev ++ (selected.filterMap
        (fun fp => (processUploadedFile mkId fp.1 fp.2).toOption)).flatten ∧
      (handleFilesSelected mkId prev selected).2 =
        selected.filterMap (fun fp =>
          match processUploadedFile mkId fp.1 fp.2 with
          | .ok _ => none
          | .error e => some e.message) ∧
      (handleFilesSelected mkId prev selected).2.length =
        (selected.filter
          (fun fp => !(processUploadedFile mkId fp.1 fp.2).toOption.isSome)).length := by
  have h := batchStep_foldl mkId selected [] []
  refine ⟨?_, ?_, ?_⟩
  · simp only [handleFilesSelected, h]
    simp
  · simp only [handleFilesSelected, h]
    simp
  · simp only [handleFilesSelected, h]
    simp only [List.nil_append]
    rw [filterMap_length_eq_count]
    congr 1
    apply List.filter_congr
    intro fp _
    cases hp : processUploadedFile mkId fp.1 fp.2 <;> simp [Except.toOption, hp]

theorem filterMap_all_some {α β : Type} (f : α → Option β) (g : α → β) :
    ∀ l : List α, (∀ a ∈ l, f a = some (g a)) → l.filterMap f = l.map g := by
  intro l
  induction l with
  | nil => intro _; rfl
  | cons a as ih =>
    intro h
    rw [List.filterMap_cons, h a (List.mem_cons_self a as), List.map_cons,
      ih (fun b hb => h b (List.mem_cons_of_mem a hb))]

/-- C1: for an archive carrying the conventional members
`Metadata/plate_n.gcode` exactly for `n` in `1..k` (with `1 ≤ k ≤ 16`),
extraction succeeds with exactly `k` records whose plate numbers are
`1, …, k` in ascending order, each record holding the content of the
member its plate number names. -/
theorem c1_conventional_extraction (fileName : List Char) (z : Zip) (k : Nat)
    (hk1 : 1 ≤ k) (hk16 : k ≤ 16)
    (hconv : ∀ n, n < 17 → 1 ≤ n →
      ((zipFile z (platePath n)).isSome = true ↔ n ≤ k)) :
    ∃ ep, extractAllPlatesFromZip fileName (some z) = .ok ep ∧
      ep.plates.length = k ∧
      ep.plates.map (fun p => p.plateNumber) = List.range' 1 k ∧
      ∀ p ∈ ep.plates, ∃ e, zipFile z (platePath p.plateNumber) = some e ∧
        p.gcode = e.content := by
  have hsplit : List.range' 1 16 = List.range' 1 k ++ List.range' (1 + k) (16 - k) := by
    have h := List.range'_append 1 k (16 - k) 1
    simp only [Nat.one_mul] at h
    rw [show (16 - k) + k = 16 from by omega] at h
    exact h.symm
  have hconvEq : conventionalPlates z =
      (List.range' 1 k).map (fun n =>
        mkPlate (((zipFile z (platePath n)).map (fun e => e.content)).getD []) n) := by
    rw [conventionalPlates, hsplit, List.filterMap_append]
    have h2 : (List.range' (1 + k) (16 - k)).filterMap (fun plateNum =>
        match zipFile z (platePath plateNum) with
        | some e => some (mkPlate e.content plateNum)
        | none => none) = [] := by
      rw [List.filterMap_eq_nil_iff]
      intro n hn
      have hr := List.mem_range'_1.mp hn
      cases hz : zipFile z (platePath n) with
      | none => rfl
      | some e =>
        have hsome : (zipFile z (platePath n)).isSome = true := by rw [hz]; rfl
        have := (hconv n (by omega) (by omega)).mp hsome
        omega
    have h1 : (List.range' 1 k).filterMap (fun plateNum =>
        match zipFile z (platePath plateNum) with
        | some e => some (mkPlate e.content plateNum)
        | none => none) =
        (List.range' 1 k).map (fun n =>
          mkPlate (((zipFile z (platePath n)).map (fun e => e.content)).getD []) n) := by
      apply filterMap_all_some
      intro n hn
      have hr := List.mem_range'_1.mp hn
      have hsome : (zipFile z (platePath n)).isSome = true :=
        (hconv n (by omega) (by omega)).mpr (by omega)
      rcases Option.isSome_iff_exists.mp hsome with ⟨e, he⟩
      rw [he]
      rfl
    rw [h1, h2, List.append_nil]
  have hlen : (conventionalPlates z).length = k := by
    rw [hconvEq, List.length_map, List.length_range']
  have hne0 : ¬((conventionalPlates z).length = 0) := by omega
  refine ⟨⟨conventionalPlates z, z, fileName⟩, ?_, hlen, ?_, ?_⟩
  · simp only [extractAllPlatesFromZip]
    rw [if_neg hne0, if_neg hne0]
  · show (conventionalPlates z).map (fun p => p.plateNumber) = List.range' 1 k
    rw [hconvEq, List.map_map]
    have hcomp : ((fun p : ParsedGCodeInfo => p.plateNumber) ∘ fun n =>
        mkPlate (((zipFile z (platePath n)).map (fun e => e.content)).getD []) n) =
        fun n => n := by
      funext n
      rfl
    rw [hcomp]
    exact List.map_id' _
  · intro p hp
    rcases mem_conventionalPlates hp with ⟨e, n, hzf, hpe, -, -⟩
    subst hpe
    exact ⟨e, hzf, rfl⟩

/-- Witness for C1 at a two-plate archive listed in reverse member
order: extraction returns plates 1 and 2 ascending. -/
theorem c1_conventional_extraction_witness :
    ∃ ep, extractAllPlatesFromZip "a.gcode.3mf".data
        (some [⟨platePath 2, false, "G2\n".data⟩, ⟨platePath 1, false, "G1\n".data⟩]) =
        .ok ep ∧
      ep.plates.length = 2 ∧
      ep.plates.map (fun p => p.plateNumber) = List.range' 1 2 ∧
      ∀ p ∈ ep.plates, ∃ e,
        zipFile [⟨platePath 2, false, "G2\n".data⟩, ⟨platePath 1, false, "G1\n".data⟩]
          (platePath p.plateNumber) = some e ∧ p.gcode = e.content :=
  c1_conventional_extraction "a.gcode.3mf".data
    [⟨platePath 2, false, "G2\n".data⟩, ⟨platePath 1, false, "G1\n".data⟩] 2
    (by decide) (by decide) (by decide)

/-! Properties of the lexicographic member order and of the fallback
scan. -/

theorem charToNat_inj (a b : Char) (h : a.toNat = b.toNat) : a = b := by
  rw [← Char.ofNat_toNat a, ← Char.ofNat_toNat b, h]

theorem lexLe_total : ∀ a b : List Char, lexLe a b = true ∨ lexLe b a = true := by
  intro a
  induction a with
  | nil => intro b; left; rfl
  | cons x xs ih =>
    intro b
    cases b with
    | nil => right; rfl
    | cons y ys =>
      by_cases hxy : x = y
      · subst hxy
        simp only [lexLe, if_pos rfl]
        exact ih ys
      · have hne : x.toNat ≠ y.toNat := fun h => hxy (charToNat_inj x y h)
        simp only [lexLe, if_neg hxy, if_neg (Ne.symm hxy)]
        rcases Nat.lt_or_ge x.toNat y.toNat with h | h
        · left; exact decide_eq_true h
        · right; exact decide_eq_true (by omega)

theorem lexLe_trans : ∀ a b c : List Char,
    lexLe a b = true → lexLe b c = true → lexLe a c = true := by
  intro a
  induction a with
  | nil => intro b c _ _; rfl
  | cons x xs ih =>
    intro b c h1 h2
    cases b with
    | nil => simp [lexLe] at h1
    | cons y ys =>
      cases c with
      | nil => simp [lexLe] at h2
      | cons z zs =>
        by_cases hxy : x = y
        · subst hxy
          rw [lexLe, if_pos rfl] at h1
          by_cases hxz : x = z
          · subst hxz
            rw [lexLe, if_pos rfl] at h2
            rw [lexLe, if_pos rfl]
            exact ih ys zs h1 h2
          · rw [lexLe, if_neg hxz] at h2
            rw [lexLe, if_neg hxz]
            exact h2
        · rw [lexLe, if_neg hxy] at h1
          have hlt1 : x.toNat < y.toNat := of_decide_eq_true h1
          by_cases hyz : y = z
          · subst hyz
            rw [lexLe, if_neg hxy]
            exact decide_eq_true hlt1
          · rw [lexLe, if_neg hyz] at h2
            have hlt2 : y.toNat < z.toNat := of_decide_eq_true h2
            have hxz : ¬x = z := by
              intro h
              subst h
              omega
            rw [lexLe, if_neg hxz]
            exact decide_eq_true (by omega)

instance : IsTotal (List Char) lexR := ⟨fun a b => lexLe_total a b⟩

instance : IsTrans (List Char) lexR := ⟨fun a b c h1 h2 => lexLe_trans a b c h1 h2⟩

theorem sortNames_perm (names : List (List Char)) :
    (sortNames names).Perm names := List.perm_insertionSort lexR names

theorem sortNames_sorted (names : List (List Char)) :
    (sortNames names).Pairwise lexR := List.sorted_insertionSort lexR names

theorem withIdx_get {α : Type} : ∀ (l : List α) (s i : Nat) (h : i < l.length),
    (s + i, l.get ⟨i, h⟩) ∈ withIdx s l := by
  intro l
  induction l with
  | nil => intro s i h; simp at h
  | cons a as ih =>
    intro s i h
    cases i with
    | zero => simp [withIdx]
    | succ i =>
      simp only [withIdx, List.mem_cons]
      right
      have hh : i < as.length := by simpa using h
      have := ih (s + 1) i hh
      rw [show s + (i + 1) = (s + 1) + i from by omega]
      simpa using this

theorem withIdx_mem {α : Type} : ∀ (l : List α) (s : Nat) (p : Nat × α),
    p ∈ withIdx s l → p.2 ∈ l ∧ s ≤ p.1 ∧ p.1 < s + l.length := by
  intro l
  induction l with
  | nil => intro s p h; simp [withIdx] at h
  | cons a as ih =>
    intro s p h
    rcases List.mem_cons.mp h with h | h
    · subst h
      refine ⟨List.mem_cons_self a as, by omega, ?_⟩
      simp only [List.length_cons]
      omega
    · rcases ih (s + 1) p h with ⟨h1, h2, h3⟩
      refine ⟨List.mem_cons_of_mem a h1, by omega, ?_⟩
      simp only [List.length_cons]
      omega

theorem zipFind_nodup : ∀ {z : Zip}, (z.map (fun x => x.name)).Nodup →
    ∀ {e : ZipEntry}, e ∈ z → zipFind z e.name = some e := by
  intro z
  induction z with
  | nil => intro _ e he; simp at he
  | cons a as ih =>
    intro hnd e he
    simp only [List.map_cons, List.nodup_cons] at hnd
    rcases List.mem_cons.mp he with h | h
    · subst h
      simp [zipFind]
    · have hne : ¬(a.name = e.name) := by
        intro hcontra
        exact hnd.1 (hcontra ▸ List.mem_map.mpr ⟨e, h, rfl⟩)
      rw [zipFind, if_neg hne]
      exact ih hnd.2 h

theorem zipFind_mem : ∀ {z : Zip} {path : List Char} {e : ZipEntry},
    zipFind z path = some e → e ∈ z := by
  intro z
  induction z with
  | nil => intro path e h; simp [zipFind] at h
  | cons a as ih =>
    intro path e h
    simp only [zipFind] at h
    by_cases ha : a.name = path
    · rw [if_pos ha] at h
      simp only [Option.some.injEq] at h
      rw [← h]
      exact List.mem_cons_self a as
    · rw [if_neg ha] at h
      exact List.mem_cons_of_mem a (ih h)

theorem conventionalPlates_nil {z : Zip}
    (hconv : ∀ n, n < 17 → 1 ≤ n → zipFile z (platePath n) = none) :
    conventionalPlates z = [] := by
  rw [conventionalPlates, List.filterMap_eq_nil_iff]
  intro n hn
  have hr := List.mem_range'_1.mp hn
  rw [hconv n (by omega) (by omega)]

theorem extract_fallback_ok (fileName : List Char) {z : Zip}
    (hconv0 : conventionalPlates z = []) (hfb : fallbackPlates z ≠ []) :
    extractAllPlatesFromZip fileName (some z) = .ok ⟨fallbackPlates z, z, fileName⟩ := by
  simp only [extractAllPlatesFromZip, hconv0, List.length_nil, if_pos rfl, if_true]
  rw [if_neg (fun h => hfb (List.length_eq_zero.mp h))]

theorem fallback_member_record {z : Zip} {e : ZipEntry}
    (hnodup : (z.map (fun x => x.name)).Nodup)
    (he : e ∈ z) (hgc : endsWithGcode e.name = true) (hdir : e.dir = false)
    (hcont : e.content ≠ []) :
    ∃ (i : Nat) (h : i < (sortNames (matchingNames z)).length),
      (sortNames (matchingNames z)).get ⟨i, h⟩ = e.name ∧
        mkPlate e.content (i + 1) ∈ fallbackPlates z := by
  have hfind : zipFind z e.name = some e := zipFind_nodup hnodup he
  have hzf : zipFile z e.name = some e := by
    rw [zipFile, hfind]
    dsimp only
    rw [if_neg (by simp [hdir])]
  have hmatch : e.name ∈ matchingNames z := by
    rw [matchingNames, List.mem_filter]
    refine ⟨List.mem_map.mpr ⟨e, he, rfl⟩, ?_⟩
    rw [Bool.and_eq_true]
    refine ⟨hgc, ?_⟩
    rw [fileDir, hfind]
    dsimp only
    rw [hdir]
    rfl
  have hsorted : e.name ∈ sortNames (matchingNames z) :=
    (sortNames_perm _).mem_iff.mpr hmatch
  rcases List.mem_iff_get.mp hsorted with ⟨⟨i, hi⟩, hget⟩
  refine ⟨i, hi, hget, ?_⟩
  rw [fallbackPlates]
  apply List.mem_filterMap.mpr
  refine ⟨(i, e.name), ?_, ?_⟩
  · have hw := withIdx_get (sortNames (matchingNames z)) 0 i hi
    rw [Nat.zero_add, hget] at hw
    exact hw
  · show (match zipFile z e.name with
      | some e2 => if e2.content ≠ [] then some (mkPlate e2.content (i + 1)) else none
      | none => none) = some (mkPlate e.content (i + 1))
    rw [hzf]
    dsimp only
    rw [if_pos hcont]

theorem endsWithGcode_append (a : List Char) :
    endsWithGcode (a ++ ".gcode".data) = true := by
  rw [endsWithGcode]
  exact List.isSuffixOf_iff_suffix.mpr (List.suffix_append a _)

/-- C2 (amended): for an archive with none of the sixteen conventional
plate members and unique member names, extraction succeeds whenever some
non-directory `.gcode`-named member has non-empty content; the returned
plates are exactly the fallback records (one per such member with
non-empty content, members with empty decoded content being skipped); the
scanned names are a lexicographically sorted permutation of the matching
names, every non-empty matching member yields the record holding its
content with plate index its one-based position in the sorted name list,
and every returned record arises that way with its index bounded by the
number of matching names. -/
theorem c2_fallback_extraction (fileName : List Char) (z : Zip)
    (hnodup : (z.map (fun e => e.name)).Nodup)
    (hconv : ∀ n, n < 17 → 1 ≤ n → zipFile z (platePath n) = none)
    (hsome : ∃ e ∈ z, endsWithGcode e.name = true ∧ e.dir = false ∧ e.content ≠ []) :
    ∃ ep, extractAllPlatesFromZip fileName (some z) = .ok ep ∧
      ep.plates = fallbackPlates z ∧
      (sortNames (matchingNames z)).Perm (matchingNames z) ∧
      (sortNames (matchingNames z)).Pairwise lexR ∧
      (∀ e ∈ z, endsWithGcode e.name = true → e.dir = false → e.content ≠ [] →
        ∃ (i : Nat) (h : i < (sortNames (matchingNames z)).length),
          (sortNames (matchingNames z)).get ⟨i, h⟩ = e.name ∧
            mkPlate e.content (i + 1) ∈ ep.plates) ∧
      (∀ p ∈ ep.plates, ∃ e ∈ z, e.dir = false ∧ endsWithGcode e.name = true ∧
        e.content ≠ [] ∧ p = mkPlate e.content p.plateNumber ∧
        p.plateNumber ≤ (matchingNames z).length) := by
  obtain ⟨e0, he0, hg0, hd0, hc0⟩ := hsome
  obtain ⟨i0, hi0, -, hmem0⟩ := fallback_member_record hnodup he0 hg0 hd0 hc0
  have hfb : fallbackPlates z ≠ [] := by
    intro hnil
    rw [hnil] at hmem0
    exact absurd hmem0 (List.not_mem_nil _)
  have hok := extract_fallback_ok fileName
    (conventionalPlates_nil hconv) hfb
  refine ⟨⟨fallbackPlates z, z, fileName⟩, hok, rfl, sortNames_perm _, sortNames_sorted _,
    ?_, ?_⟩
  · intro e he hg hd hc
    exact fallback_member_record hnodup he hg hd hc
  · intro p hp
    rcases mem_fallbackPlates hp with ⟨e, i, hwi, hzf, hc, hpe⟩
    rcases zipFile_name hzf with ⟨hname, hdir, hfind⟩
    have hez : e ∈ z := zipFind_mem hfind
    rcases withIdx_mem _ 0 (i, e.name) hwi with ⟨hin, -, hlt⟩
    have hmn : e.name ∈ matchingNames z := (sortNames_perm _).mem_iff.mp hin
    have hgname : endsWithGcode e.name = true := by
      have hfil := (List.mem_filter.mp (by rw [matchingNames] at hmn; exact hmn)).2
      simp only [Bool.and_eq_true] at hfil
      exact hfil.1
    have hlen : i < (matchingNames z).length := by
      have := (sortNames_perm (matchingNames z)).length_eq
      omega
    subst hpe
    exact ⟨e, hez, hdir, hgname, hc, rfl, by
      show i + 1 ≤ (matchingNames z).length
      omega⟩

/-- Witness for C2 at an archive listing `b.gcode` before `a.gcode`:
extraction succeeds and the record of `a.gcode` takes position one. -/
theorem c2_fallback_extraction_witness :
    ∃ ep, extractAllPlatesFromZip "x.3mf".data
        (some [⟨"b.gcode".data, false, "GB\n".data⟩,
          ⟨"a.gcode".data, false, "GA\n".data⟩]) = .ok ep ∧
      ep.plates = fallbackPlates
        [⟨"b.gcode".data, false, "GB\n".data⟩, ⟨"a.gcode".data, false, "GA\n".data⟩] ∧
      (sortNames (matchingNames
        [⟨"b.gcode".data, false, "GB\n".data⟩,
          ⟨"a.gcode".data, false, "GA\n".data⟩])).Perm (matchingNames
        [⟨"b.gcode".data, false, "GB\n".data⟩, ⟨"a.gcode".data, false, "GA\n".data⟩]) ∧
      (sortNames (matchingNames
        [⟨"b.gcode".data, false, "GB\n".data⟩,
          ⟨"a.gcode".data, false, "GA\n".data⟩])).Pairwise lexR ∧
      (∀ e ∈ ([⟨"b.gcode".data, false, "GB\n".data⟩,
          ⟨"a.gcode".data, false, "GA\n".data⟩] : Zip),
        endsWithGcode e.name = true → e.dir = false → e.content ≠ [] →
        ∃ (i : Nat) (h : i < (sortNames (matchingNames
            [⟨"b.gcode".data, false, "GB\n".data⟩,
              ⟨"a.gcode".data, false, "GA\n".data⟩])).length),
          (sortNames (matchingNames
            [⟨"b.gcode".data, false, "GB\n".data⟩,
              ⟨"a.gcode".data, false, "GA\n".data⟩])).get ⟨i, h⟩ = e.name ∧
            mkPlate e.content (i + 1) ∈ ep.plates) ∧
      (∀ p ∈ ep.plates, ∃ e ∈ ([⟨"b.gcode".data, false, "GB\n".data⟩,
          ⟨"a.gcode".data, false, "GA\n".data⟩] : Zip), e.dir = false ∧
        endsWithGcode e.name = true ∧ e.content ≠ [] ∧
        p = mkPlate e.content p.plateNumber ∧
        p.plateNumber ≤ (matchingNames
          [⟨"b.gcode".data, false, "GB\n".data⟩,
            ⟨"a.gcode".data, false, "GA\n".data⟩]).length) :=
  c2_fallback_extraction "x.3mf".data
    [⟨"b.gcode".data, false, "GB\n".data⟩, ⟨"a.gcode".data, false, "GA\n".data⟩]
    (by decide) (by decide) (by decide)

/-- Counterexample to C2 as stated: for the archive whose only member is
the non-directory `a.gcode` with empty decoded content, the claim says
extraction keeps the member and returns one plate, but the code skips
falsy (empty) content and then fails with the no-G-code error. -/
theorem c2_fallback_counterexample :
    extractAllPlatesFromZip "x.3mf".data (some [⟨"a.gcode".data, false, []⟩]) =
        .error ⟨noGcodeMsg "x.3mf".data⟩ ∧
      ∀ ep, extractAllPlatesFromZip "x.3mf".data
        (some [⟨"a.gcode".data, false, []⟩]) ≠ .ok ep := by
  refine ⟨rfl, ?_⟩
  intro ep h
  rw [show extractAllPlatesFromZip "x.3mf".data (some [⟨"a.gcode".data, false, []⟩]) =
    .error ⟨noGcodeMsg "x.3mf".data⟩ from rfl] at h
  exact Except.noConfusion h

/-- C10 (amended): an archive whose members avoid the sixteen
conventional paths but include a conventional-looking plate member with
index above sixteen and non-empty content does not fail: the member is
picked up by the fallback scan, and its record's plate index is its
one-based position in the lexicographically sorted matching-name list
(bounded by the number of matching members), not the number in its file
name. -/
theorem c10_oversized_plate (fileName : List Char) (z : Zip) (j : Nat) (e : ZipEntry)
    (hnodup : (z.map (fun x => x.name)).Nodup)
    (hconv : ∀ n, n < 17 → 1 ≤ n → zipFile z (platePath n) = none)
    (_hj : 17 ≤ j) (he : e ∈ z) (hname : e.name = platePath j)
    (hdir : e.dir = false) (hcont : e.content ≠ []) :
    ∃ ep, extractAllPlatesFromZip fileName (some z) = .ok ep ∧
      ∃ (i : Nat) (h : i < (sortNames (matchingNames z)).length),
        (sortNames (matchingNames z)).get ⟨i, h⟩ = e.name ∧
          mkPlate e.content (i + 1) ∈ ep.plates ∧
          i + 1 ≤ (matchingNames z).length := by
  have hgc : endsWithGcode e.name = true := by
    rw [hname, platePath]
    exact endsWithGcode_append _
  obtain ⟨i, hi, hget, hmem⟩ := fallback_member_record hnodup he hgc hdir hcont
  have hfb : fallbackPlates z ≠ [] := by
    intro hnil
    rw [hnil] at hmem
    exact absurd hmem (List.not_mem_nil _)
  have hok := extract_fallback_ok fileName
    (conventionalPlates_nil hconv) hfb
  refine ⟨⟨fallbackPlates z, z, fileName⟩, hok, i, hi, hget, hmem, ?_⟩
  have := (sortNames_perm (matchingNames z)).length_eq
  omega

/-- Witness for C10 at an archive whose only member is
`Metadata/plate_17.gcode` with non-empty content: extraction succeeds and
the record takes plate index one, not seventeen. -/
theorem c10_oversized_plate_witness :
    (∃ ep, extractAllPlatesFromZip "x.3mf".data
        (some [⟨platePath 17, false, "G17\n".data⟩]) = .ok ep ∧
      ∃ (i : Nat) (h : i < (sortNames (matchingNames
          [⟨platePath 17, false, "G17\n".data⟩])).length),
        (sortNames (matchingNames [⟨platePath 17, false, "G17\n".data⟩])).get ⟨i, h⟩ =
            (⟨platePath 17, false, "G17\n".data⟩ : ZipEntry).name ∧
          mkPlate (⟨platePath 17, false, "G17\n".data⟩ : ZipEntry).content (i + 1) ∈
              ep.plates ∧
          i + 1 ≤ (matchingNames [⟨platePath 17, false, "G17\n".data⟩]).length) :=
  c10_oversized_plate "x.3mf".data [⟨platePath 17, false, "G17\n".data⟩] 17
    ⟨platePath 17, false, "G17\n".data⟩
    (by decide) (by decide) (by decide) (by decide) (by decide) (by decide) (by decide)

/-- Counterexample to C10 as stated: for the archive whose only member is
`Metadata/plate_17.gcode` with empty decoded content (and no member for
plates one through sixteen), the claim says extraction does not fail, but
the code skips the falsy content and fails with the no-G-code error. -/
theorem c10_oversized_plate_counterexample :
    extractAllPlatesFromZip "y.3mf".data (some [⟨platePath 17, false, []⟩]) =
        .error ⟨noGcodeMsg "y.3mf".data⟩ ∧
      ∀ ep, extractAllPlatesFromZip "y.3mf".data
        (some [⟨platePath 17, false, []⟩]) ≠ .ok ep := by
  refine ⟨rfl, ?_⟩
  intro ep h
  rw [show extractAllPlatesFromZip "y.3mf".data (some [⟨platePath 17, false, []⟩]) =
    .error ⟨noGcodeMsg "y.3mf".data⟩ from rfl] at h
  exact Except.noConfusion h

/-- C6: the time-estimate scanner tries its three patterns in fixed
priority order — the estimated-printing-time comment, the TIME tag with a
bare integer, the total-estimated-time comment — and the first pattern
that matches anywhere in the text supplies the result, regardless of
whether a lower-priority pattern matches an earlier position; a trimmed
capture that is a bare integer is rendered as whole seconds through the
duration formatter, any other trimmed capture is returned unchanged, and
the result is absent (not an error) when no pattern matches. -/
theorem c6_estimate_priority (g : List Char) :
    (∀ v, matchP1 g = some v → parseEstimatedTime g = some (processValue v)) ∧
      (matchP1 g = none → ∀ v, matchP2 g = some v →
        parseEstimatedTime g = some (processValue v)) ∧
      (matchP1 g = none → matchP2 g = none → ∀ v, matchP3 g = some v →
        parseEstimatedTime g = some (processValue v)) ∧
      (matchP1 g = none → matchP2 g = none → matchP3 g = none →
        parseEstimatedTime g = none) ∧
      (∀ v, trimStr v ≠ [] → (trimStr v).all (fun c => c.isDigit) = true →
        processValue v = formatSeconds (parseDigits (trimStr v))) ∧
      (∀ v, ¬(trimStr v ≠ [] ∧ (trimStr v).all (fun c => c.isDigit) = true) →
        processValue v = trimStr v) := by
  refine ⟨?_, ?_, ?_, ?_, ?_, ?_⟩
  · intro v h
    simp only [parseEstimatedTime, h]
  · intro h1 v h2
    simp only [parseEstimatedTime, h1, h2]
  · intro h1 h2 v h3
    simp only [parseEstimatedTime, h1, h2, h3]
  · intro h1 h2 h3
    simp only [parseEstimatedTime, h1, h2, h3]
  · intro v h1 h2
    simp only [processValue]
    rw [if_pos ⟨h1, h2⟩]
  · intro v h
    simp only [processValue]
    rw [if_neg h]

/-- Witness for C6: in a text whose first line matches the TIME-tag
pattern and whose second line matches the estimated-printing-time
pattern, the higher-priority second pattern wins even though the
lower-priority pattern matches an earlier line. -/
theorem c6_estimate_priority_witness :
    matchP2 ";TIME:99\n;estimated printing time=5\n".data = some "99".data ∧
      parseEstimatedTime ";TIME:99\n;estimated printing time=5\n".data =
        some (processValue "5".data) := by
  refine ⟨by decide, ?_⟩
  exact (c6_estimate_priority ";TIME:99\n;estimated printing time=5\n".data).1
    "5".data (by decide)

end GcodeCombiner
